import Mathlib

/-!
Verification of the text-processing core of `repo_bundle_review_apply.py`.

Text is modelled as `List Char` (Python `str`).  Python's Unicode whitespace
set, `str.splitlines` boundary set, `str.strip`/`rstrip`, `str.split`,
`str.find`, and the concrete regular expressions used by the script are
embedded as executable Lean functions.  Regular expressions are embedded by
their matching semantics on the concrete patterns appearing in the source
(each pattern is simple enough that its backtracking behaviour is
deterministic; this is spelled out at each definition).  Case folding and the
`\b`/`\w` word classes are embedded at ASCII precision (Python's versions
additionally cover rare non-ASCII letters; all literals involved are ASCII).
-/

/-- Python whitespace (`str.isspace`, and `\s` in a Unicode `str` pattern). -/
def pySpace (c : Char) : Bool :=
  let n := c.toNat
  n = 32 || n = 9 || n = 10 || n = 13 || n = 11 || n = 12 ||
  n = 0x1c || n = 0x1d || n = 0x1e || n = 0x1f || n = 0x85 || n = 0xa0 ||
  n = 0x1680 || (0x2000 ≤ n && n ≤ 0x200a) || n = 0x2028 || n = 0x2029 ||
  n = 0x202f || n = 0x205f || n = 0x3000

/-- Line boundary characters of Python `str.splitlines`. -/
def isLineBoundary (c : Char) : Bool :=
  let n := c.toNat
  n = 10 || n = 13 || n = 11 || n = 12 || n = 0x1c || n = 0x1d || n = 0x1e ||
  n = 0x85 || n = 0x2028 || n = 0x2029

/-- Word character for the regex `\b` boundary (ASCII approximation of `\w`). -/
def isWordChar (c : Char) : Bool :=
  let n := c.toNat
  (48 ≤ n && n ≤ 57) || (65 ≤ n && n ≤ 90) || (97 ≤ n && n ≤ 122) || n = 95

/-- ASCII lower-casing, for the `re.IGNORECASE` comparisons in the source. -/
def lowCh (c : Char) : Char :=
  if 65 ≤ c.toNat ∧ c.toNat ≤ 90 then Char.ofNat (c.toNat + 32) else c

/-- `startsWithL s pat`: `pat` is a literal prefix of `s` (Python `str.startswith`). -/
def startsWithL : List Char → List Char → Bool
  | _, [] => true
  | [], _ :: _ => false
  | c :: cs, p :: ps => c == p && startsWithL cs ps

/-- Case-insensitive (ASCII) equality of two character lists. -/
def caselessEqL : List Char → List Char → Bool
  | [], [] => true
  | a :: as, b :: bs => lowCh a == lowCh b && caselessEqL as bs
  | _, _ => false

/-- Case-insensitive (ASCII) `startswith`. -/
def caselessStartsWith : List Char → List Char → Bool
  | _, [] => true
  | [], _ :: _ => false
  | c :: cs, p :: ps => lowCh c == lowCh p && caselessStartsWith cs ps

/-- Python `str.lstrip()`. -/
def lstripL (cs : List Char) : List Char := cs.dropWhile pySpace

/-- Python `str.rstrip()`. -/
def rstripL (cs : List Char) : List Char := (cs.reverse.dropWhile pySpace).reverse

/-- Python `str.strip()`. -/
def stripL (cs : List Char) : List Char := rstripL (lstripL cs)

/-- Worker of `splitlines`: the accumulator holds the current line, reversed;
a `\r\n` pair counts as a single boundary. -/
def splitlinesGo : List Char → List Char → List (List Char)
  | [], acc => if acc.isEmpty then [] else [acc.reverse]
  | [c], acc => if isLineBoundary c then [acc.reverse] else [(c :: acc).reverse]
  | c :: d :: rest, acc =>
    if c = '\r' ∧ d = '\n' then acc.reverse :: splitlinesGo rest []
    else if isLineBoundary c then acc.reverse :: splitlinesGo (d :: rest) []
    else splitlinesGo (d :: rest) (c :: acc)

/-- Python `str.splitlines()`. -/
def splitlines (cs : List Char) : List (List Char) := splitlinesGo cs []

/-- Python `"\n".join(lines)`. -/
def joinNL : List (List Char) → List Char
  | [] => []
  | [l] => l
  | l :: l' :: ls => l ++ '\n' :: joinNL (l' :: ls)

/-- Worker of `splitWS`: the accumulator holds the current token, reversed. -/
def splitWSGo : List Char → List Char → List (List Char)
  | [], acc => if acc.isEmpty then [] else [acc.reverse]
  | c :: rest, acc =>
    if pySpace c then
      if acc.isEmpty then splitWSGo rest [] else acc.reverse :: splitWSGo rest []
    else splitWSGo rest (c :: acc)

/-- Python `str.split()` (split on whitespace runs, dropping empty tokens). -/
def splitWS (cs : List Char) : List (List Char) := splitWSGo cs []

/-! ## Secret Sanitizer (`_sanitize_git_config`, source lines 64-90) -/

/-- Non-word context for a `\b` boundary: start of string, or a non-word char. -/
def prevNW : Option Char → Bool
  | none => true
  | some c => !isWordChar c

/-- The regex `(?i)\bextraheader\b` matches at the head of `cs`, with `prev`
the character immediately before `cs` (if any). -/
def ehAt (prev : Option Char) (cs : List Char) : Bool :=
  prevNW prev && caselessStartsWith cs "extraheader".data &&
    (match (cs.drop 11).head? with
     | none => true
     | some c => !isWordChar c)

/-- `re.search(r"(?i)\bextraheader\b", line)`: scan all positions. -/
def credSearch : Option Char → List Char → Bool
  | _, [] => false
  | prev, c :: rest => ehAt prev (c :: rest) || credSearch (some c) rest

/-- `re.search(r"^(\s*url\s*=\s*)(\S+)(\s*)$", line)`, returning the three
groups.  The pattern is anchored and its character classes are disjoint from
the literals that follow them, so matching is deterministic: maximal
whitespace runs, the literal `url`, `=`, a maximal nonempty non-whitespace
token, and a trailing all-whitespace remainder. -/
def parseUrlLine (l : List Char) : Option (List Char × List Char × List Char) :=
  let ws1 := l.takeWhile pySpace
  let r1 := l.dropWhile pySpace
  if startsWithL r1 "url".data then
    let r2 := r1.drop 3
    let ws2 := r2.takeWhile pySpace
    let r3 := r2.dropWhile pySpace
    if r3.head? = some '=' then
      let r4 := r3.tail
      let ws3 := r4.takeWhile pySpace
      let r5 := r4.dropWhile pySpace
      let tok := r5.takeWhile (fun c => !pySpace c)
      let r6 := r5.dropWhile (fun c => !pySpace c)
      if tok.isEmpty then none
      else if r6.all pySpace then
        some (ws1 ++ "url".data ++ ws2 ++ '=' :: ws3, tok, r6)
      else none
    else none
  else none

/-- `_HTTP_URL_WITH_USERINFO.match(url)` followed by the
`group(1) + group(3)` rewrite: pattern `^(https?://)([^/@\s]+@)(.+)$`.
`s?` prefers the long scheme; the userinfo run is a maximal run of
`[^/@\s]` that must be followed by `@`; `.` does not match `\n`, and `$`
also accepts a position before one final `\n`. -/
def stripUserinfoAt (url : List Char) (n : Nat) : List Char :=
  let rest := url.drop n
  let run := rest.takeWhile (fun c => !(c == '/' || c == '@' || pySpace c))
  let after := rest.drop run.length
  if after.head? = some '@' then
    let g3 := after.tail
    let core := if g3.getLast? = some '\n' then g3.dropLast else g3
    if run ≠ [] ∧ core ≠ [] ∧ core.all (fun c => !(c == '\n')) then
      url.take n ++ core
    else url
  else url

def stripUserinfo (url : List Char) : List Char :=
  if startsWithL url "https://".data then stripUserinfoAt url 8
  else if startsWithL url "http://".data then stripUserinfoAt url 7
  else url

/-- One iteration of the sanitizer's per-line loop (source lines 69-87). -/
def sanitize_line (line : List Char) : List Char :=
  if credSearch none line then
    if line.contains '=' then
      line.takeWhile (fun c => !(c == '=')) ++ "= <redacted>".data
    else "<redacted>".data
  else
    match parseUrlLine line with
    | some (pre, url, suf) => rstripL (pre ++ stripUserinfo url ++ suf)
    | none => rstripL line

/-- `_sanitize_git_config` (source lines 67-90). -/
def sanitize_git_config (raw : List Char) : List Char :=
  joinNL ((splitlines raw).map sanitize_line) ++
    (if raw.getLast? = some '\n' then ['\n'] else [])

/-! ## Response Text Extractor (`_extract_patch`, source lines 408-420) -/

/-- Characters of `u` strictly before its first occurrence of a literal
` ``` ` fence; `none` when `u` has no such occurrence. -/
def beforeTicks : List Char → Option (List Char)
  | [] => none
  | c :: rest =>
    if startsWithL (c :: rest) ("\x60\x60\x60".data) then some []
    else (beforeTicks rest).map (c :: ·)

/-- Leftmost match of `` re.compile(r"```diff\s*(.*?)\s*```", re.DOTALL) ``,
up to the outer `.strip()` applied by the caller: the pattern matches at the
first ` ```diff ` occurrence that is followed (7 characters later or more) by
a closing ` ``` `; since `.strip()` is applied to group 1 afterwards, the
relevant content is everything between the opening tag and the first
subsequent ` ``` `. -/
def findFence : List Char → Option (List Char)
  | [] => none
  | c :: rest =>
    if startsWithL (c :: rest) ("\x60\x60\x60diff".data) then
      match beforeTicks ((c :: rest).drop 7) with
      | some interior => some interior
      | none => findFence rest
    else findFence rest

/-- `text.find(pat)`, returning the suffix of `text` from the first
occurrence of `pat` (or `none`). -/
def findTail (pat : List Char) : List Char → Option (List Char)
  | [] => none
  | c :: rest => if startsWithL (c :: rest) pat then some (c :: rest) else findTail pat rest

/-- `_extract_patch` (source lines 411-420). -/
def extract_patch (t : List Char) : Option (List Char) :=
  match findFence t with
  | some interior => some (stripL interior ++ ['\n'])
  | none =>
    match findTail "diff --git ".data t with
    | some tail => some (stripL tail ++ ['\n'])
    | none => none

/-! ## Post-Apply Steps Extractor (`_extract_post_apply_steps`, lines 423-445) -/

/-- The line matches `^\s*#+\s*Post-apply steps\s*$` or
`^\s*Post-apply steps\s*:?\s*$`, both `re.IGNORECASE`.  The first pattern is
deterministic (runs of `\s` and `#` are maximal since each is followed by a
character outside its class); in the second the optional colon follows a
maximal whitespace run. -/
def isHeadingLine (l : List Char) : Bool :=
  let r := l.dropWhile pySpace
  let case1 : Bool :=
    if r.head? = some '#' then
      let r3 := (r.dropWhile (fun c => c == '#')).dropWhile pySpace
      caselessStartsWith r3 "Post-apply steps".data && (r3.drop 16).all pySpace
    else false
  let case2 : Bool :=
    caselessStartsWith r "Post-apply steps".data &&
      (let r4 := (r.drop 16).dropWhile pySpace
       r4.isEmpty || (r4.head? == some ':' && r4.tail.all pySpace))
  case1 || case2

/-- `re.match(r"^\s*#+\s*\S+", line)`: after leading whitespace there are one
or more `#`; the match succeeds when a second `#` follows the first (the
backtracked `#+` leaves it for `\S+`) or some non-whitespace character
follows the `#` run and the subsequent whitespace. -/
def isStopLine (l : List Char) : Bool :=
  let r := l.dropWhile pySpace
  if r.head? = some '#' then
    if r.tail.head? = some '#' then true
    else !(r.tail.dropWhile pySpace).isEmpty
  else false

/-- The scan loop of `_extract_post_apply_steps`: lines after the first
heading line, or `none`. -/
def findHeading : List (List Char) → Option (List (List Char))
  | [] => none
  | l :: ls => if isHeadingLine l then some ls else findHeading ls

/-- `_extract_post_apply_steps` (source lines 423-445). -/
def extract_post_apply_steps (t : List Char) : Option (List Char) :=
  match findHeading (splitlines t) with
  | none => none
  | some rest =>
    let collected := rest.takeWhile (fun l => !isStopLine l)
    let steps := stripL (joinNL collected)
    if steps.isEmpty then none else some steps

/-! ## Patch Safety Gate (`_diff_touches_git_dir`, source lines 448-476) -/

/-- `is_git_dir_path` (source lines 449-450). -/
def is_git_dir_path (p : List Char) : Bool :=
  p == ".git".data || startsWithL p ".git/".data

/-- One iteration of the gate's line loop (source lines 452-475). -/
def touchLine (line : List Char) : Bool :=
  if startsWithL line "diff --git ".data then
    match splitWS line with
    | _ :: _ :: a :: b :: _ =>
      let a2 := if startsWithL a "a/".data then a.drop 2 else a
      let b2 := if startsWithL b "b/".data then b.drop 2 else b
      is_git_dir_path a2 || is_git_dir_path b2
    | _ => false
  else if startsWithL line "--- ".data || startsWithL line "+++ ".data then
    match splitWS line with
    | _ :: p :: _ =>
      if p = "/dev/null".data then false
      else
        is_git_dir_path
          (if startsWithL p "a/".data || startsWithL p "b/".data then p.drop 2 else p)
    | _ => false
  else false

/-- `_diff_touches_git_dir` (source lines 448-476). -/
def diff_touches_git_dir (t : List Char) : Bool :=
  (splitlines t).any touchLine

/-! ## Archive size ceiling (`_create_repo_bundle_zip`, source lines 196-202)

The archive construction itself is filesystem I/O; the post-build
enforcement of the size ceiling — the subject of the claim — is a pure
function of the measured size, the ceiling, and the archive path, embedded
here.  `Except.error` models the raised `RuntimeError` (the run aborts and
no path is returned); `Except.ok` models returning `zip_path`. -/

/-- The message of the `RuntimeError` raised at source lines 198-201. -/
def bundleSizeMessage (size maxZipBytes : Nat) : List Char :=
  "Bundle zip is ".data ++ (toString size).data ++
    " bytes, exceeds limit ".data ++ (toString maxZipBytes).data ++
    ". Use --max-zip-bytes to raise the limit or set --include-git none.".data

/-- The post-build check of `_create_repo_bundle_zip` (source lines 196-202). -/
def create_repo_bundle_zip_check (size maxZipBytes : Nat) (zipPath : List Char) :
    Except (List Char) (List Char) :=
  if size > maxZipBytes then Except.error (bundleSizeMessage size maxZipBytes)
  else Except.ok zipPath

/-! ## Wait Coordinator, local-file mode (`_wait_for_manual_response`,
source lines 342-373)

One successful read of the response file is modelled as a step function.
The SHA-256 content digest is an abstract function `digest` into a type with
decidable equality; `lastSeen` is `last_seen_digest`.  `result = some text`
models `return text`; `warned` records the `[WARN]` print; `ranExtract`
records whether `_extract_patch` was invoked on this read (it is skipped
entirely when the digest is unchanged). -/

structure PollStep (D : Type) where
  result : Option (List Char)
  warned : Bool
  ranExtract : Bool
  nextDigest : Option D
  deriving DecidableEq

/-- The body of the polling loop for one read of the file (source lines
362-371). -/
def waitStep {D : Type} [DecidableEq D] (digest : List Char → D)
    (lastSeen : Option D) (text : List Char) : PollStep D :=
  let d := digest text
  if lastSeen = some d then
    { result := none, warned := false, ranExtract := false, nextDigest := lastSeen }
  else if (extract_patch text).isSome then
    { result := some text, warned := false, ranExtract := true, nextDigest := some d }
  else if stripL text ≠ [] then
    { result := none, warned := true, ranExtract := true, nextDigest := some d }
  else
    { result := none, warned := false, ranExtract := true, nextDigest := some d }

/-! ## Specification-side definitions

These definitions follow the wording of the specification's claims (not the
source); the theorems below compare the source embeddings against them. -/

/-- `pat` occurs in `t` at position `i`. -/
@[reducible]
def occAt (pat t : List Char) (i : Nat) : Prop :=
  startsWithL (t.drop i) pat = true

/-- `pat` occurs somewhere in `t` (decidable form, via suffixes). -/
def hasOcc (pat t : List Char) : Bool :=
  t.tails.any (fun s => startsWithL s pat)

/-- Spec C2: the text contains a fenced diff block: an opening tag with some
closing fence after it. -/
def hasDiffFence (t : List Char) : Bool :=
  t.tails.any (fun s =>
    startsWithL s "\x60\x60\x60diff".data && hasOcc "\x60\x60\x60".data (s.drop 7))

/-- Spec C2: position `i` opens a fenced diff block that is closed after it. -/
def fenceAt (t : List Char) (i : Nat) : Prop :=
  occAt "\x60\x60\x60diff".data t i ∧
    ∃ j, occAt "\x60\x60\x60".data (t.drop (i + 7)) j

/-- Spec C1: the paths yielded by one metadata line: for a `diff --git `
line, its third and fourth whitespace tokens with the conventional `a/`
and `b/` prefixes stripped; for a `--- `/`+++ ` line, its second token,
skipping the literal `/dev/null` marker, with a conventional `a/` or `b/`
prefix stripped; other lines yield nothing. -/
def metaPathsClaim (line : List Char) : List (List Char) :=
  if startsWithL line "diff --git ".data then
    match splitWS line with
    | _ :: _ :: a :: b :: _ =>
      [(if startsWithL a "a/".data then a.drop 2 else a),
       (if startsWithL b "b/".data then b.drop 2 else b)]
    | _ => []
  else if startsWithL line "--- ".data || startsWithL line "+++ ".data then
    match splitWS line with
    | _ :: p :: _ =>
      if p = "/dev/null".data then []
      else [if startsWithL p "a/".data || startsWithL p "b/".data then p.drop 2 else p]
    | _ => []
  else []

/-- Spec C1: a path equal to the internals directory name, or beginning with
that name followed by a separator. -/
def gitInternalsPath (p : List Char) : Prop :=
  p = ".git".data ∨ ".git/".data <+: p

/-- Spec C1: some metadata line yields a path touching the internals
directory. -/
def gateClaim (t : List Char) : Prop :=
  ∃ l ∈ splitlines t, ∃ p ∈ metaPathsClaim l, gitInternalsPath p

/-- Spec C7 (amended): declarative form of a "Post-apply steps" heading
line: optional leading whitespace, then either heading markers (no colon)
or no markers and an optional colon, around the case-insensitive literal. -/
def headingProp (l : List Char) : Prop :=
  (∃ w1 ks w2 lit tl, l = w1 ++ ks ++ w2 ++ lit ++ tl ∧
     (∀ c ∈ w1, pySpace c = true) ∧ ks ≠ [] ∧ (∀ c ∈ ks, c = '#') ∧
     (∀ c ∈ w2, pySpace c = true) ∧
     caselessEqL lit "Post-apply steps".data = true ∧
     (∀ c ∈ tl, pySpace c = true)) ∨
  (∃ w1 lit w2 ct, l = w1 ++ lit ++ w2 ++ ct ∧
     (∀ c ∈ w1, pySpace c = true) ∧
     caselessEqL lit "Post-apply steps".data = true ∧
     (∀ c ∈ w2, pySpace c = true) ∧
     (ct = [] ∨ ∃ w3, ct = ':' :: w3 ∧ (∀ c ∈ w3, pySpace c = true)))

/-- Spec C7 (amended): declarative form of a heading-start line: optional
leading whitespace, one or more markers, optional whitespace, then a
non-whitespace character. -/
def stopProp (l : List Char) : Prop :=
  ∃ w1 ks w2 c rest, l = w1 ++ ks ++ w2 ++ c :: rest ∧
    (∀ x ∈ w1, pySpace x = true) ∧ ks ≠ [] ∧ (∀ x ∈ ks, x = '#') ∧
    (∀ x ∈ w2, pySpace x = true) ∧ pySpace c = false

/-- Spec C7 (amended): full declarative contract of the steps extractor:
either no line is a heading and the result is `none`, or the lines after the
first heading line, cut at the first heading-start line, joined and trimmed,
give the result (`none` when empty). -/
def stepsSpec (t : List Char) (res : Option (List Char)) : Prop :=
  (res = none ∧ ∀ l ∈ splitlines t, ¬headingProp l) ∨
  (∃ i li, (splitlines t).get? i = some li ∧ headingProp li ∧
    (∀ j lj, j < i → (splitlines t).get? j = some lj → ¬headingProp lj) ∧
    ∃ body rest, (splitlines t).drop (i + 1) = body ++ rest ∧
      (∀ l ∈ body, ¬stopProp l) ∧
      (rest = [] ∨ ∃ l0 rest2, rest = l0 :: rest2 ∧ stopProp l0) ∧
      res = (if stripL (joinNL body) = [] then none else some (stripL (joinNL body))))

/-- Claim C7 (as stated): a heading line in "any of these forms": optional
leading markers AND an optional trailing colon, in all four combinations,
case-insensitively. -/
def claimIsHeading (l : List Char) : Bool :=
  let r := l.dropWhile pySpace
  let r1 :=
    if r.head? = some '#' then (r.dropWhile (fun c => c == '#')).dropWhile pySpace
    else r
  caselessStartsWith r1 "Post-apply steps".data &&
    (let r2 := (r1.drop 16).dropWhile pySpace
     r2.isEmpty || (r2.head? == some ':' && r2.tail.all pySpace))

/-- Hypothesis of the amended claim C3: every line matching the url pattern
carries at most one `@` in its value. -/
def urlValueOk (l : List Char) : Bool :=
  match parseUrlLine l with
  | some (_, u, _) => u.count '@' ≤ 1
  | none => true

/-- Amended claim C4: the wholesale replacement of a credential-header
line: everything after the first `=` is replaced by the redaction marker
(`<redacted>` alone when the line has no `=`). -/
def credReplacement (l : List Char) : List Char :=
  if l.contains '=' then l.takeWhile (fun c => !(c == '=')) ++ "= <redacted>".data
  else "<redacted>".data

/-! ## Toolkit lemmas -/

theorem startsWithL_iff (s pat : List Char) : startsWithL s pat = true ↔ pat <+: s := by
  induction pat generalizing s with
  | nil => simp [startsWithL]
  | cons p ps ih =>
    cases s with
    | nil => simp [startsWithL]
    | cons c cs =>
      simp only [startsWithL, Bool.and_eq_true, beq_iff_eq, List.cons_prefix_cons, ih]
      tauto

theorem startsWithL_append_self (pat rest : List Char) :
    startsWithL (pat ++ rest) pat = true :=
  (startsWithL_iff _ _).mpr ⟨rest, rfl⟩

theorem dropWhile_append_all {α : Type} {p : α → Bool} {w r : List α}
    (h : ∀ c ∈ w, p c = true) : (w ++ r).dropWhile p = r.dropWhile p := by
  induction w with
  | nil => simp
  | cons a w ih =>
    simp only [List.cons_append, List.dropWhile_cons, h a (by simp), if_true]
    exact ih (fun c hc => h c (by simp [hc]))

theorem takeWhile_append_all {α : Type} {p : α → Bool} {w r : List α}
    (h : ∀ c ∈ w, p c = true) : (w ++ r).takeWhile p = w ++ r.takeWhile p := by
  induction w with
  | nil => simp
  | cons a w ih =>
    simp only [List.cons_append, List.takeWhile_cons, h a (by simp), if_true]
    simp [ih (fun c hc => h c (by simp [hc]))]

theorem dropWhile_eq_self_of_head {α : Type} {p : α → Bool} {r : List α}
    (h : ∀ c, r.head? = some c → p c = false) : r.dropWhile p = r := by
  cases r with
  | nil => simp
  | cons a r => simp [List.dropWhile_cons, h a rfl]

theorem takeWhile_eq_nil_of_head {α : Type} {p : α → Bool} {r : List α}
    (h : ∀ c, r.head? = some c → p c = false) : r.takeWhile p = [] := by
  cases r with
  | nil => simp
  | cons a r => simp [List.takeWhile_cons, h a rfl]

theorem rstripL_append_ws {x w : List Char} (h : ∀ c ∈ w, pySpace c = true) :
    rstripL (x ++ w) = rstripL x := by
  unfold rstripL
  rw [List.reverse_append, dropWhile_append_all]
  intro c hc
  exact h c (List.mem_reverse.mp hc)

theorem rstripL_eq_self {x : List Char}
    (h : ∀ c, x.getLast? = some c → pySpace c = false) : rstripL x = x := by
  unfold rstripL
  rw [dropWhile_eq_self_of_head, List.reverse_reverse]
  intro c hc
  exact h c (by rwa [List.head?_reverse] at hc)

theorem hasOcc_of_append (pat A B : List Char) :
    hasOcc pat (A ++ (pat ++ B)) = true := by
  unfold hasOcc
  rw [List.any_eq_true]
  exact ⟨pat ++ B, (List.mem_tails _ _).mpr (List.suffix_append _ _),
    startsWithL_append_self _ _⟩

/-! ## Claim C8: an empty or whitespace-only fenced diff block yields `"\n"` -/

/-- C8: for a text containing a fenced diff block whose interior is empty,
and one whose interior is whitespace-only, `_extract_patch` returns the
one-character string `"\n"`, not `None`. -/
theorem extract_patch_empty_fence :
    extract_patch ("\x60\x60\x60diff\n\x60\x60\x60".data) = some ['\n'] ∧
    extract_patch ("\x60\x60\x60diff\n  \n\x60\x60\x60".data) = some ['\n'] := by
  decide

/-! ## Claim C5: the archive size ceiling is enforced post-build -/

/-- C5: the post-build check of `_create_repo_bundle_zip` returns the
archive path exactly when the measured size is at or below the ceiling;
when the size exceeds the ceiling it fails with the fatal error whose
message carries both the actual size and the ceiling, and no path is
returned. -/
theorem bundle_size_ceiling_check :
    ∀ (size maxB : Nat) (path : List Char),
      (create_repo_bundle_zip_check size maxB path = Except.ok path ↔ size ≤ maxB) ∧
      (maxB < size →
        create_repo_bundle_zip_check size maxB path =
            Except.error (bundleSizeMessage size maxB) ∧
          hasOcc (toString size).data (bundleSizeMessage size maxB) = true ∧
          hasOcc (toString maxB).data (bundleSizeMessage size maxB) = true) := by
  intro size maxB path
  constructor
  · unfold create_repo_bundle_zip_check
    by_cases h : size > maxB
    · simp [h]
    · simp [h]
      omega
  · intro h
    refine ⟨by simp [create_repo_bundle_zip_check, h], ?_, ?_⟩
    · have := hasOcc_of_append (toString size).data "Bundle zip is ".data
        (" bytes, exceeds limit ".data ++ (toString maxB).data ++
          ". Use --max-zip-bytes to raise the limit or set --include-git none.".data)
      simpa [bundleSizeMessage] using this
    · have := hasOcc_of_append (toString maxB).data
        ("Bundle zip is ".data ++ (toString size).data ++ " bytes, exceeds limit ".data)
        (". Use --max-zip-bytes to raise the limit or set --include-git none.".data)
      simpa [bundleSizeMessage] using this

/-- Witness for C5 at size 5, ceiling 3 (and the within-ceiling direction at
size 2, ceiling 3). -/
theorem bundle_size_ceiling_check_witness :
    create_repo_bundle_zip_check 5 3 "bundle.zip".data =
        Except.error (bundleSizeMessage 5 3) ∧
      hasOcc (toString 5).data (bundleSizeMessage 5 3) = true ∧
      hasOcc (toString 3).data (bundleSizeMessage 5 3) = true ∧
      create_repo_bundle_zip_check 2 3 "bundle.zip".data = Except.ok "bundle.zip".data :=
  ⟨((bundle_size_ceiling_check 5 3 "bundle.zip".data).2 (by decide)).1,
   ((bundle_size_ceiling_check 5 3 "bundle.zip".data).2 (by decide)).2.1,
   ((bundle_size_ceiling_check 5 3 "bundle.zip".data).2 (by decide)).2.2,
   (bundle_size_ceiling_check 2 3 "bundle.zip".data).1.mpr (by decide)⟩

/-! ## Claim C10: the gate is decided solely by diff metadata lines -/

/-- C10: on any text none of whose lines starts with `diff --git `, `--- `,
or `+++ ` — in particular the empty string and the single newline — the
Patch Safety Gate returns false. -/
theorem gate_false_without_metadata_lines :
    (∀ t : List Char,
        (∀ l ∈ splitlines t,
            startsWithL l "diff --git ".data = false ∧
            startsWithL l "--- ".data = false ∧
            startsWithL l "+++ ".data = false) →
        diff_touches_git_dir t = false) ∧
      diff_touches_git_dir [] = false ∧ diff_touches_git_dir ['\n'] = false := by
  refine ⟨?_, by decide, by decide⟩
  intro t h
  unfold diff_touches_git_dir
  rw [List.any_eq_false]
  intro l hl
  obtain ⟨h1, h2, h3⟩ := h l hl
  simp [touchLine, h1, h2, h3]

/-- Witness for C10 at the single-newline text (the output of
`_extract_patch` on an empty fence). -/
theorem gate_false_without_metadata_lines_witness :
    diff_touches_git_dir ['\n'] = false :=
  gate_false_without_metadata_lines.1 ['\n'] (by decide)

/-! ## Claim C6 (corrected): local-file wait behaviour per polled read -/

/-- Counterexample to C6 as stated: a read with a changed digest (none seen
before) whose content `" "` is non-empty and yields no extractable patch
does NOT log a warning — the source only warns when the content is non-empty
after stripping whitespace. -/
theorem wait_step_blank_change_no_warn :
    ([' '] : List Char) ≠ [] ∧
      (none : Option (List Char)) ≠ some ((fun s : List Char => s) [' ']) ∧
      extract_patch [' '] = none ∧
      (waitStep (fun s : List Char => s) none [' ']).warned = false := by
  decide

/-- C6 (amended): for every digest function and every polled read: a read
whose digest equals the last seen digest triggers no extraction and no
termination; a read with a changed digest that yields an extractable patch
terminates the wait returning that text; a read with a changed digest whose
content is non-WHITESPACE but yields no patch logs a warning and continues;
a changed whitespace-only read without a patch continues silently. -/
theorem wait_step_behavior :
    ∀ (D : Type) [DecidableEq D] (digest : List Char → D)
      (last : Option D) (text : List Char),
      (last = some (digest text) →
        waitStep digest last text =
          { result := none, warned := false, ranExtract := false, nextDigest := last }) ∧
      (last ≠ some (digest text) → (extract_patch text).isSome = true →
        waitStep digest last text =
          { result := some text, warned := false, ranExtract := true,
            nextDigest := some (digest text) }) ∧
      (last ≠ some (digest text) → extract_patch text = none → stripL text ≠ [] →
        waitStep digest last text =
          { result := none, warned := true, ranExtract := true,
            nextDigest := some (digest text) }) ∧
      (last ≠ some (digest text) → extract_patch text = none → stripL text = [] →
        waitStep digest last text =
          { result := none, warned := false, ranExtract := true,
            nextDigest := some (digest text) }) := by
  intro D _ digest last text
  refine ⟨fun h => ?_, fun h he => ?_, fun h he hs => ?_, fun h he hs => ?_⟩
  · simp [waitStep, h]
  · simp [waitStep, h, he]
  · simp [waitStep, h, he, hs]
  · simp [waitStep, h, he, hs]

/-- Witness for C6 (amended) with the identity digest: an unchanged read, a
terminating read carrying a bare diff header, and a changed non-whitespace
read without a patch. -/
theorem wait_step_behavior_witness :
    waitStep (fun s : List Char => s) (some "x".data) "x".data =
        { result := none, warned := false, ranExtract := false,
          nextDigest := some "x".data } ∧
      waitStep (fun s : List Char => s) none "diff --git a/x b/x".data =
        { result := some "diff --git a/x b/x".data, warned := false,
          ranExtract := true, nextDigest := some "diff --git a/x b/x".data } ∧
      waitStep (fun s : List Char => s) none "hello".data =
        { result := none, warned := true, ranExtract := true,
          nextDigest := some "hello".data } :=
  ⟨(wait_step_behavior (List Char) (fun s => s) (some "x".data) "x".data).1 rfl,
   (wait_step_behavior (List Char) (fun s => s) none "diff --git a/x b/x".data).2.1
     (by decide) (by decide),
   ((wait_step_behavior (List Char) (fun s => s) none "hello".data).2.2.1
     (by decide) (by decide) (by decide))⟩

/-! ## Claim C1: the gate trips exactly on internals paths in metadata lines -/

theorem is_git_dir_path_iff (p : List Char) :
    is_git_dir_path p = true ↔ gitInternalsPath p := by
  simp [is_git_dir_path, gitInternalsPath, startsWithL_iff]

theorem touchLine_iff (l : List Char) :
    touchLine l = true ↔ ∃ p ∈ metaPathsClaim l, gitInternalsPath p := by
  unfold touchLine metaPathsClaim
  by_cases h1 : startsWithL l "diff --git ".data = true
  · simp only [h1, if_true]
    cases hsp : splitWS l with
    | nil => simp
    | cons t1 r1 =>
      cases r1 with
      | nil => simp
      | cons t2 r2 =>
        cases r2 with
        | nil => simp
        | cons a r3 =>
          cases r3 with
          | nil => simp
          | cons b r4 => simp [is_git_dir_path_iff, or_assoc]
  · simp only [h1, if_false, Bool.not_eq_true] at *
    simp only [h1, Bool.false_eq_true, if_false]
    by_cases h2 : (startsWithL l "--- ".data || startsWithL l "+++ ".data) = true
    · simp only [h2, if_true]
      cases hsp : splitWS l with
      | nil => simp
      | cons t1 r1 =>
        cases r1 with
        | nil => simp
        | cons p r2 =>
          by_cases hdn : p = "/dev/null".data
          · simp [hdn]
          · simp [hdn, is_git_dir_path_iff]
    · simp only [Bool.not_eq_true] at h2
      simp [h2]

/-- C1: the Patch Safety Gate returns true exactly when some metadata line
(`diff --git `, `--- `, `+++ `) yields — after stripping the conventional
`a/`/`b/` prefixes and skipping the `/dev/null` marker — a path equal to
`.git` or beginning with `.git/`; in particular it trips on
`diff --git a/.git/config b/.git/config` and not on
`diff --git a/.gitignore b/.gitignore`. -/
theorem gate_matches_metadata_path_spec :
    (∀ t : List Char, diff_touches_git_dir t = true ↔ gateClaim t) ∧
      diff_touches_git_dir "diff --git a/.git/config b/.git/config".data = true ∧
      diff_touches_git_dir "diff --git a/.gitignore b/.gitignore".data = false := by
  refine ⟨?_, by decide, by decide⟩
  intro t
  unfold diff_touches_git_dir gateClaim
  rw [List.any_eq_true]
  constructor
  · rintro ⟨l, hl, ht⟩
    exact ⟨l, hl, (touchLine_iff l).mp ht⟩
  · rintro ⟨l, hl, hp⟩
    exact ⟨l, hl, (touchLine_iff l).mpr hp⟩

/-! ## Claim C2: search order of `_extract_patch` -/

theorem startsWithL_nil_of_ne {pat : List Char} (hp : pat ≠ []) :
    startsWithL [] pat = false := by
  cases pat with
  | nil => exact absurd rfl hp
  | cons p ps => rfl

theorem occAt_cons_succ (pat : List Char) (c : Char) (r : List Char) (i : Nat) :
    occAt pat (c :: r) (i + 1) ↔ occAt pat r i := by
  simp [occAt, List.drop_succ_cons]

theorem hasOcc_iff (pat t : List Char) :
    hasOcc pat t = true ↔ ∃ i, occAt pat t i := by
  unfold hasOcc
  rw [List.any_eq_true]
  constructor
  · rintro ⟨s, hs, hsw⟩
    obtain ⟨pre, rfl⟩ := (List.mem_tails _ _).mp hs
    refine ⟨pre.length, ?_⟩
    rw [occAt, List.drop_left]
    exact hsw
  · rintro ⟨i, hi⟩
    exact ⟨t.drop i, (List.mem_tails _ _).mpr (List.drop_suffix _ _), hi⟩

theorem findTail_eq_none_iff {pat : List Char} (hp : pat ≠ []) (t : List Char) :
    findTail pat t = none ↔ ∀ i, ¬occAt pat t i := by
  induction t with
  | nil =>
    simp [findTail, occAt, startsWithL_nil_of_ne hp]
  | cons c r ih =>
    by_cases h : startsWithL (c :: r) pat = true
    · simp only [findTail, h, if_true]
      constructor
      · intro hfalse
        exact absurd hfalse (by simp)
      · intro hall
        exact absurd h (hall 0)
    · rw [Bool.not_eq_true] at h
      simp only [findTail, h, Bool.false_eq_true, if_false, ih]
      constructor
      · intro hall i
        cases i with
        | zero => simp [occAt, h]
        | succ i => exact fun hc => hall i ((occAt_cons_succ pat c r i).mp hc)
      · intro hall i hi
        exact hall (i + 1) ((occAt_cons_succ pat c r i).mpr hi)

theorem findTail_eq_some_iff {pat : List Char} (hp : pat ≠ []) (t s : List Char) :
    findTail pat t = some s ↔
      ∃ i, occAt pat t i ∧ (∀ j, j < i → ¬occAt pat t j) ∧ s = t.drop i := by
  induction t generalizing s with
  | nil =>
    simp [findTail, occAt, startsWithL_nil_of_ne hp]
  | cons c r ih =>
    by_cases h : startsWithL (c :: r) pat = true
    · simp only [findTail, h, if_true, Option.some_inj]
      constructor
      · rintro rfl
        exact ⟨0, h, fun j hj => absurd hj (Nat.not_lt_zero _), rfl⟩
      · rintro ⟨i, hi, hmin, rfl⟩
        cases i with
        | zero => rfl
        | succ i => exact absurd h (hmin 0 (Nat.succ_pos _))
    · rw [Bool.not_eq_true] at h
      simp only [findTail, h, Bool.false_eq_true, if_false, ih]
      constructor
      · rintro ⟨i, hi, hmin, rfl⟩
        refine ⟨i + 1, (occAt_cons_succ pat c r i).mpr hi, ?_, List.drop_succ_cons.symm⟩
        intro j hj
        cases j with
        | zero => simp [occAt, h]
        | succ j =>
          exact fun hc => hmin j (Nat.lt_of_succ_lt_succ hj) ((occAt_cons_succ pat c r j).mp hc)
      · rintro ⟨i, hi, hmin, rfl⟩
        cases i with
        | zero => simp [occAt, h] at hi
        | succ i =>
          refine ⟨i, (occAt_cons_succ pat c r i).mp hi, ?_, List.drop_succ_cons⟩
          intro j hj
          exact fun hc => hmin (j + 1) (Nat.succ_lt_succ hj) ((occAt_cons_succ pat c r j).mpr hc)

theorem beforeTicks_eq_none_iff (u : List Char) :
    beforeTicks u = none ↔ ∀ j, ¬occAt "\x60\x60\x60".data u j := by
  induction u with
  | nil =>
    simp [beforeTicks, occAt, startsWithL_nil_of_ne (show ("\x60\x60\x60".data : List Char) ≠ [] by decide)]
  | cons c r ih =>
    by_cases h : startsWithL (c :: r) "\x60\x60\x60".data = true
    · simp only [beforeTicks, h, if_true]
      constructor
      · intro hfalse
        exact absurd hfalse (by simp)
      · intro hall
        exact absurd h (hall 0)
    · rw [Bool.not_eq_true] at h
      simp only [beforeTicks, h, Bool.false_eq_true, if_false, Option.map_eq_none', ih]
      constructor
      · intro hall j
        cases j with
        | zero => simp [occAt, h]
        | succ j => exact fun hc => hall j ((occAt_cons_succ _ c r j).mp hc)
      · intro hall j hj
        exact hall (j + 1) ((occAt_cons_succ _ c r j).mpr hj)

theorem beforeTicks_eq_some_iff (u v : List Char) :
    beforeTicks u = some v ↔
      ∃ j, occAt "\x60\x60\x60".data u j ∧
        (∀ i, i < j → ¬occAt "\x60\x60\x60".data u i) ∧ v = u.take j := by
  induction u generalizing v with
  | nil =>
    simp [beforeTicks, occAt, startsWithL_nil_of_ne (show ("\x60\x60\x60".data : List Char) ≠ [] by decide)]
  | cons c r ih =>
    by_cases h : startsWithL (c :: r) "\x60\x60\x60".data = true
    · simp only [beforeTicks, h, if_true, Option.some_inj]
      constructor
      · rintro rfl
        exact ⟨0, h, fun i hi => absurd hi (Nat.not_lt_zero _), rfl⟩
      · rintro ⟨j, hj, hmin, rfl⟩
        cases j with
        | zero => rfl
        | succ j => exact absurd h (hmin 0 (Nat.succ_pos _))
    · rw [Bool.not_eq_true] at h
      simp only [beforeTicks, h, Bool.false_eq_true, if_false, Option.map_eq_some']
      constructor
      · rintro ⟨v', hv', rfl⟩
        obtain ⟨j, hj, hmin, rfl⟩ := (ih v').mp hv'
        refine ⟨j + 1, (occAt_cons_succ _ c r j).mpr hj, ?_, List.take_succ_cons.symm⟩
        intro i hi
        cases i with
        | zero => simp [occAt, h]
        | succ i =>
          exact fun hc => hmin i (Nat.lt_of_succ_lt_succ hi) ((occAt_cons_succ _ c r i).mp hc)
      · rintro ⟨j, hj, hmin, rfl⟩
        cases j with
        | zero => simp [occAt, h] at hj
        | succ j =>
          refine ⟨r.take j, (ih _).mpr ⟨j, (occAt_cons_succ _ c r j).mp hj, ?_, rfl⟩,
            List.take_succ_cons.symm⟩
          intro i hi
          exact fun hc => hmin (i + 1) (Nat.succ_lt_succ hi) ((occAt_cons_succ _ c r i).mpr hc)

theorem least_unique {P : Nat → Prop} {a b : Nat} (ha : P a) (hb : P b)
    (hma : ∀ x, x < a → ¬P x) (hmb : ∀ x, x < b → ¬P x) : a = b := by
  rcases Nat.lt_trichotomy a b with h | h | h
  · exact absurd ha (hmb a h)
  · exact h
  · exact absurd hb (hma b h)

theorem fenceAt_cons_succ (c : Char) (r : List Char) (i : Nat) :
    fenceAt (c :: r) (i + 1) ↔ fenceAt r i := by
  unfold fenceAt
  rw [occAt_cons_succ, show i + 1 + 7 = (i + 7) + 1 from rfl, List.drop_succ_cons]

theorem fenceAt_nil (i : Nat) : ¬fenceAt [] i := by
  rintro ⟨hocc, -⟩
  simp [occAt, startsWithL_nil_of_ne
    (show ("\x60\x60\x60diff".data : List Char) ≠ [] by decide)] at hocc

theorem findFence_eq_none_iff (t : List Char) :
    findFence t = none ↔ ∀ i, ¬fenceAt t i := by
  induction t with
  | nil => simpa [findFence] using fenceAt_nil
  | cons c r ih =>
    by_cases h : startsWithL (c :: r) "\x60\x60\x60diff".data = true
    · simp only [findFence, h, if_true]
      cases hbt : beforeTicks ((c :: r).drop 7) with
      | some v =>
        constructor
        · intro hfalse
          exact absurd hfalse (by simp)
        · intro hall
          obtain ⟨j, hj, -, -⟩ := (beforeTicks_eq_some_iff _ _).mp hbt
          exact absurd (show fenceAt (c :: r) 0 from ⟨h, j, hj⟩) (hall 0)
      | none =>
        rw [ih]
        have hnoclose := (beforeTicks_eq_none_iff _).mp hbt
        constructor
        · intro hall i
          cases i with
          | zero => exact fun hf => hnoclose hf.2.choose hf.2.choose_spec
          | succ i => exact fun hf => hall i ((fenceAt_cons_succ c r i).mp hf)
        · intro hall i hf
          exact hall (i + 1) ((fenceAt_cons_succ c r i).mpr hf)
    · rw [Bool.not_eq_true] at h
      simp only [findFence, h, Bool.false_eq_true, if_false, ih]
      constructor
      · intro hall i
        cases i with
        | zero => exact fun hf => by simp [fenceAt, occAt, h] at hf
        | succ i => exact fun hf => hall i ((fenceAt_cons_succ c r i).mp hf)
      · intro hall i hf
        exact hall (i + 1) ((fenceAt_cons_succ c r i).mpr hf)

theorem findFence_eq_some_iff (t v : List Char) :
    findFence t = some v ↔
      ∃ i, fenceAt t i ∧ (∀ i', i' < i → ¬fenceAt t i') ∧
        ∃ j, occAt "\x60\x60\x60".data (t.drop (i + 7)) j ∧
          (∀ j', j' < j → ¬occAt "\x60\x60\x60".data (t.drop (i + 7)) j') ∧
          v = (t.drop (i + 7)).take j := by
  induction t generalizing v with
  | nil =>
    constructor
    · intro hfalse
      exact absurd hfalse (by simp [findFence])
    · rintro ⟨i, hf, -⟩
      exact absurd hf (fenceAt_nil i)
  | cons c r ih =>
    by_cases h : startsWithL (c :: r) "\x60\x60\x60diff".data = true
    · simp only [findFence, h, if_true]
      cases hbt : beforeTicks ((c :: r).drop 7) with
      | some w =>
        obtain ⟨j0, hj0, hj0min, rfl⟩ := (beforeTicks_eq_some_iff _ _).mp hbt
        simp only [Option.some_inj]
        constructor
        · rintro rfl
          exact ⟨0, ⟨h, j0, hj0⟩, fun i' hi' => absurd hi' (Nat.not_lt_zero _),
            j0, hj0, hj0min, rfl⟩
        · rintro ⟨i, hfi, hmin, j, hj, hjmin, rfl⟩
          have hi0 : i = 0 := by
            cases i with
            | zero => rfl
            | succ i => exact absurd ⟨h, j0, hj0⟩ (hmin 0 (Nat.succ_pos _))
          subst hi0
          have : j = j0 := least_unique hj hj0 hjmin hj0min
          subst this
          rfl
      | none =>
        have hnoclose := (beforeTicks_eq_none_iff _).mp hbt
        rw [ih]
        constructor
        · rintro ⟨i, hfi, hmin, j, hj, hjmin, rfl⟩
          refine ⟨i + 1, (fenceAt_cons_succ c r i).mpr hfi, ?_, j, ?_, ?_, ?_⟩
          · intro i' hi'
            cases i' with
            | zero => exact fun hf => hnoclose hf.2.choose hf.2.choose_spec
            | succ i' =>
              exact fun hf => hmin i' (Nat.lt_of_succ_lt_succ hi') ((fenceAt_cons_succ c r i').mp hf)
          · rwa [show i + 1 + 7 = (i + 7) + 1 from rfl, List.drop_succ_cons]
          · rwa [show i + 1 + 7 = (i + 7) + 1 from rfl, List.drop_succ_cons]
          · rw [show i + 1 + 7 = (i + 7) + 1 from rfl, List.drop_succ_cons]
        · rintro ⟨i, hfi, hmin, j, hj, hjmin, rfl⟩
          cases i with
          | zero => exact absurd (hfi.2.choose_spec) (hnoclose hfi.2.choose)
          | succ i =>
            rw [show i + 1 + 7 = (i + 7) + 1 from rfl, List.drop_succ_cons] at hj hjmin ⊢
            refine ⟨i, (fenceAt_cons_succ c r i).mp hfi, ?_, j, hj, hjmin, rfl⟩
            intro i' hi'
            exact fun hf => hmin (i' + 1) (Nat.succ_lt_succ hi') ((fenceAt_cons_succ c r i').mpr hf)
    · rw [Bool.not_eq_true] at h
      simp only [findFence, h, Bool.false_eq_true, if_false, ih]
      constructor
      · rintro ⟨i, hfi, hmin, j, hj, hjmin, rfl⟩
        refine ⟨i + 1, (fenceAt_cons_succ c r i).mpr hfi, ?_, j, ?_, ?_, ?_⟩
        · intro i' hi'
          cases i' with
          | zero => exact fun hf => by simp [fenceAt, occAt, h] at hf
          | succ i' =>
            exact fun hf => hmin i' (Nat.lt_of_succ_lt_succ hi') ((fenceAt_cons_succ c r i').mp hf)
        · rwa [show i + 1 + 7 = (i + 7) + 1 from rfl, List.drop_succ_cons]
        · rwa [show i + 1 + 7 = (i + 7) + 1 from rfl, List.drop_succ_cons]
        · rw [show i + 1 + 7 = (i + 7) + 1 from rfl, List.drop_succ_cons]
      · rintro ⟨i, hfi, hmin, j, hj, hjmin, rfl⟩
        cases i with
        | zero => exact absurd hfi (by simp [fenceAt, occAt, h])
        | succ i =>
          rw [show i + 1 + 7 = (i + 7) + 1 from rfl, List.drop_succ_cons] at hj hjmin ⊢
          refine ⟨i, (fenceAt_cons_succ c r i).mp hfi, ?_, j, hj, hjmin, rfl⟩
          intro i' hi'
          exact fun hf => hmin (i' + 1) (Nat.succ_lt_succ hi') ((fenceAt_cons_succ c r i').mpr hf)

theorem hasDiffFence_true_iff (t : List Char) :
    hasDiffFence t = true ↔ ∃ i, fenceAt t i := by
  unfold hasDiffFence
  rw [List.any_eq_true]
  constructor
  · rintro ⟨s, hs, hsc⟩
    obtain ⟨pre, rfl⟩ := (List.mem_tails _ _).mp hs
    rw [Bool.and_eq_true] at hsc
    obtain ⟨h1, h2⟩ := hsc
    obtain ⟨j, hj⟩ := (hasOcc_iff _ _).mp h2
    have hdr : (pre ++ s).drop (pre.length + 7) = s.drop 7 := by
      rw [← List.drop_drop, List.drop_left]
    refine ⟨pre.length, ?_, j, ?_⟩
    · rw [occAt, List.drop_left]
      exact h1
    · rw [occAt, hdr]
      exact hj
  · rintro ⟨i, h1, j, hj⟩
    refine ⟨t.drop i, (List.mem_tails _ _).mpr (List.drop_suffix _ _), ?_⟩
    rw [Bool.and_eq_true]
    refine ⟨h1, (hasOcc_iff _ _).mpr ⟨j, ?_⟩⟩
    have hdr : (t.drop i).drop 7 = t.drop (i + 7) := by
      rw [List.drop_drop]
    rw [occAt, hdr]
    exact hj

/-- C2: `_extract_patch` follows exactly the claimed search order: if the
text contains a fenced diff block, the result is the first such block's
interior, trimmed and newline-normalized; otherwise, if the text contains
the literal `diff --git `, the result is everything from the first such
occurrence to the end, trimmed and newline-normalized; otherwise `None`. -/
theorem extract_patch_search_order :
    ∀ t : List Char,
      (hasDiffFence t = false → hasOcc "diff --git ".data t = false →
        extract_patch t = none) ∧
      (hasDiffFence t = false →
        ∀ k, occAt "diff --git ".data t k →
          (∀ k', k' < k → ¬occAt "diff --git ".data t k') →
          extract_patch t = some (stripL (t.drop k) ++ ['\n'])) ∧
      (∀ i, fenceAt t i → (∀ i', i' < i → ¬fenceAt t i') →
        ∀ j, occAt "\x60\x60\x60".data (t.drop (i + 7)) j →
          (∀ j', j' < j → ¬occAt "\x60\x60\x60".data (t.drop (i + 7)) j') →
          extract_patch t = some (stripL ((t.drop (i + 7)).take j) ++ ['\n'])) := by
  intro t
  have hdg : ("diff --git ".data : List Char) ≠ [] := by decide
  refine ⟨?_, ?_, ?_⟩
  · intro hf hh
    have h1 : findFence t = none := by
      rw [findFence_eq_none_iff]
      intro i hi
      have h := (hasDiffFence_true_iff t).mpr ⟨i, hi⟩
      simp [hf] at h
    have h2 : findTail "diff --git ".data t = none := by
      rw [findTail_eq_none_iff hdg]
      intro i hi
      have h := (hasOcc_iff "diff --git ".data t).mpr ⟨i, hi⟩
      simp [hh] at h
    simp [extract_patch, h1, h2]
  · intro hf k hk hkmin
    have h1 : findFence t = none := by
      rw [findFence_eq_none_iff]
      intro i hi
      have h := (hasDiffFence_true_iff t).mpr ⟨i, hi⟩
      simp [hf] at h
    have h2 : findTail "diff --git ".data t = some (t.drop k) :=
      (findTail_eq_some_iff hdg t _).mpr ⟨k, hk, hkmin, rfl⟩
    simp [extract_patch, h1, h2]
  · intro i hi himin j hj hjmin
    have h1 : findFence t = some ((t.drop (i + 7)).take j) :=
      (findFence_eq_some_iff t _).mpr ⟨i, hi, himin, j, hj, hjmin, rfl⟩
    simp [extract_patch, h1]

/-- Witness for C2: the three branches at concrete texts: no fence and no
header; a bare header at position 3; a fence opening at position 2 whose
closing fence sits 3 characters after the tag. -/
theorem extract_patch_search_order_witness :
    extract_patch "hello".data = none ∧
      extract_patch "xx diff --git a/f b/f".data =
        some (stripL (("xx diff --git a/f b/f".data).drop 3) ++ ['\n']) ∧
      extract_patch "ab\x60\x60\x60diff\nP\n\x60\x60\x60".data =
        some (stripL ((("ab\x60\x60\x60diff\nP\n\x60\x60\x60".data).drop (2 + 7)).take 3) ++ ['\n']) := by
  refine ⟨?_, ?_, ?_⟩
  · exact (extract_patch_search_order _).1 (by decide) (by decide)
  · apply (extract_patch_search_order _).2.1 (by decide) 3 (by decide)
    intro k' hk' hocc
    interval_cases k' <;> revert hocc <;> decide
  · apply (extract_patch_search_order _).2.2 2 ⟨by decide, 3, by decide⟩ ?_ 3 (by decide) ?_
    · intro i' hi' hfc
      obtain ⟨hocc, -⟩ := hfc
      interval_cases i' <;> revert hocc <;> decide
    · intro j' hj' hocc
      interval_cases j' <;> revert hocc <;> decide

/-! ## Claim C7: the post-apply steps extractor -/

theorem lowCh_eq_self_of_pySpace {c : Char} (h : pySpace c = true) : lowCh c = c := by
  simp only [pySpace, Bool.or_eq_true, Bool.and_eq_true, decide_eq_true_eq] at h
  rw [lowCh, if_neg]
  intro hc
  omega

theorem pySpace_eq_false_of_lowCh {c d : Char} (h : lowCh c = d)
    (hd : pySpace d = false) : pySpace c = false := by
  by_contra hc
  rw [Bool.not_eq_false] at hc
  rw [lowCh_eq_self_of_pySpace hc] at h
  subst h
  rw [hc] at hd
  cases hd

theorem ne_hash_of_lowCh {c : Char} (h : lowCh c = 'p') : c ≠ '#' := by
  rintro rfl
  simp [lowCh] at h

theorem caselessEqL_length {a b : List Char} (h : caselessEqL a b = true) :
    a.length = b.length := by
  induction a generalizing b with
  | nil => cases b with
    | nil => rfl
    | cons x xs => simp [caselessEqL] at h
  | cons x xs ih =>
    cases b with
    | nil => simp [caselessEqL] at h
    | cons y ys =>
      rw [caselessEqL, Bool.and_eq_true] at h
      simp [ih h.2]

theorem caselessEqL_ne_nil {a b : List Char} (h : caselessEqL a b = true)
    (hb : b ≠ []) : a ≠ [] := by
  intro ha
  subst ha
  cases b with
  | nil => exact hb rfl
  | cons y ys => simp [caselessEqL] at h

theorem caselessStartsWith_iff (s pat : List Char) :
    caselessStartsWith s pat = true ↔
      ∃ s1 s2, s = s1 ++ s2 ∧ caselessEqL s1 pat = true := by
  induction pat generalizing s with
  | nil =>
    simp only [caselessStartsWith]
    constructor
    · intro _
      exact ⟨[], s, rfl, rfl⟩
    · intro _
      trivial
  | cons p ps ih =>
    cases s with
    | nil =>
      simp only [caselessStartsWith, Bool.false_eq_true, false_iff]
      rintro ⟨s1, s2, hs, hce⟩
      have : s1 = [] := by
        cases s1 with
        | nil => rfl
        | cons a as => simp at hs
      subst this
      simp [caselessEqL] at hce
    | cons c cs =>
      rw [caselessStartsWith, Bool.and_eq_true, beq_iff_eq, ih]
      constructor
      · rintro ⟨hl, s1, s2, rfl, hce⟩
        exact ⟨c :: s1, s2, rfl, by rw [caselessEqL, Bool.and_eq_true, beq_iff_eq]; exact ⟨hl, hce⟩⟩
      · rintro ⟨s1, s2, hs, hce⟩
        cases s1 with
        | nil => simp [caselessEqL] at hce
        | cons a as =>
          rw [caselessEqL, Bool.and_eq_true, beq_iff_eq] at hce
          rw [List.cons_append] at hs
          injection hs with h1 h2
          subst h1
          exact ⟨hce.1, as, s2, h2, hce.2⟩

theorem caselessEqL_append_sw {s1 pat : List Char} (s2 : List Char)
    (h : caselessEqL s1 pat = true) : caselessStartsWith (s1 ++ s2) pat = true :=
  (caselessStartsWith_iff _ _).mpr ⟨s1, s2, rfl, h⟩

theorem mem_of_takeWhile {α : Type} {p : α → Bool} {l : List α} {c : α}
    (h : c ∈ l.takeWhile p) : p c = true := by
  induction l with
  | nil => simp at h
  | cons a as ih =>
    rw [List.takeWhile_cons] at h
    by_cases hp : p a = true
    · rw [if_pos hp] at h
      rcases List.mem_cons.mp h with rfl | hmem
      · exact hp
      · exact ih hmem
    · rw [Bool.not_eq_true] at hp
      rw [hp] at h
      simp at h

theorem dropWhile_all_eq_nil {α : Type} {p : α → Bool} {w : List α}
    (h : ∀ c ∈ w, p c = true) : w.dropWhile p = [] := by
  induction w with
  | nil => rfl
  | cons a as ih =>
    rw [List.dropWhile_cons, if_pos (h a (by simp))]
    exact ih (fun c hc => h c (by simp [hc]))

theorem dropWhile_head_not {α : Type} {p : α → Bool} {l : List α} {c : α}
    {xs : List α} (h : l.dropWhile p = c :: xs) : p c = false := by
  induction l with
  | nil => simp at h
  | cons a as ih =>
    rw [List.dropWhile_cons] at h
    by_cases hp : p a = true
    · rw [if_pos hp] at h
      exact ih h
    · rw [Bool.not_eq_true] at hp
      rw [hp] at h
      simp only [Bool.false_eq_true, if_false] at h
      injection h with h1 h2
      subst h1
      exact hp

theorem isStopLine_iff (l : List Char) : isStopLine l = true ↔ stopProp l := by
  constructor
  · intro h
    simp only [isStopLine] at h
    by_cases hh : (l.dropWhile pySpace).head? = some '#'
    · rw [if_pos hh] at h
      cases hrr : l.dropWhile pySpace with
      | nil => rw [hrr] at hh; simp at hh
      | cons c r1 =>
        rw [hrr] at hh h
        have hc : c = '#' := by simpa using hh
        subst hc
        have hl : l = l.takeWhile pySpace ++ '#' :: r1 := by
          rw [← hrr, List.takeWhile_append_dropWhile]
        have hw1 : ∀ x ∈ l.takeWhile pySpace, pySpace x = true :=
          fun x hx => mem_of_takeWhile hx
        simp only [List.tail_cons] at h
        by_cases h2 : r1.head? = some '#'
        · cases r1 with
          | nil => simp at h2
          | cons d r2 =>
            have hd : d = '#' := by simpa using h2
            subst hd
            refine ⟨l.takeWhile pySpace, ['#'], [], '#', r2, ?_, hw1, by simp,
              by simp, by simp, by decide⟩
            exact hl.trans (by simp)
        · rw [if_neg h2] at h
          cases hdw : r1.dropWhile pySpace with
          | nil => rw [hdw] at h; simp at h
          | cons d r2 =>
            have hdws : pySpace d = false := dropWhile_head_not hdw
            refine ⟨l.takeWhile pySpace, ['#'], r1.takeWhile pySpace, d, r2, ?_, hw1,
              by simp, by simp, fun x hx => mem_of_takeWhile hx, hdws⟩
            have hr1 : r1 = r1.takeWhile pySpace ++ d :: r2 := by
              rw [← hdw, List.takeWhile_append_dropWhile]
            refine hl.trans ?_
            conv_lhs => rw [hr1]
            simp
    · rw [if_neg hh] at h
      cases h
  · rintro ⟨w1, ks, w2, c, rest, rfl, hw1, hksne, hks, hw2, hc⟩
    simp only [isStopLine]
    cases ks with
    | nil => exact absurd rfl hksne
    | cons k ks' =>
      have hk : k = '#' := hks k (by simp)
      subst hk
      have happ : (w1 ++ '#' :: ks' ++ w2 ++ c :: rest : List Char) =
          w1 ++ '#' :: (ks' ++ (w2 ++ c :: rest)) := by
        simp
      rw [happ]
      have hdw : (w1 ++ '#' :: (ks' ++ (w2 ++ c :: rest))).dropWhile pySpace =
          '#' :: (ks' ++ (w2 ++ c :: rest)) := by
        rw [dropWhile_append_all hw1]
        apply dropWhile_eq_self_of_head
        intro x hx
        simp only [List.head?_cons, Option.some_inj] at hx
        subst hx
        decide
      rw [hdw]
      rw [if_pos (by simp)]
      simp only [List.tail_cons]
      cases ks' with
      | cons k2 ks'' =>
        have hk2 : k2 = '#' := hks k2 (by simp)
        subst hk2
        rw [if_pos (by simp)]
      | nil =>
        simp only [List.nil_append]
        by_cases hch : (w2 ++ c :: rest).head? = some '#'
        · rw [if_pos hch]
        · rw [if_neg hch]
          have hde : (w2 ++ c :: rest).dropWhile pySpace = c :: rest := by
            rw [dropWhile_append_all hw2]
            apply dropWhile_eq_self_of_head
            intro x hx
            simp only [List.head?_cons, Option.some_inj] at hx
            subst hx
            exact hc
          rw [hde]
          simp

theorem dropWhile_decomp {α : Type} (p : α → Bool) (l : List α) :
    ∃ w, l = w ++ l.dropWhile p ∧ ∀ x ∈ w, p x = true :=
  ⟨l.takeWhile p, (List.takeWhile_append_dropWhile p l).symm,
    fun _ hx => mem_of_takeWhile hx⟩

theorem isHeadingLine_iff (l : List Char) : isHeadingLine l = true ↔ headingProp l := by
  have hplen : ("Post-apply steps".data : List Char).length = 16 := by decide
  constructor
  · intro h
    simp only [isHeadingLine, Bool.or_eq_true] at h
    rcases h with h1 | h2
    · by_cases hh : (l.dropWhile pySpace).head? = some '#'
      case neg => rw [if_neg hh] at h1; cases h1
      rw [if_pos hh] at h1
      rw [Bool.and_eq_true] at h1
      obtain ⟨hcsw, hall⟩ := h1
      set r := l.dropWhile pySpace with hrdef
      obtain ⟨w1, hl, hw1⟩ : ∃ w, l = w ++ r ∧ ∀ x ∈ w, pySpace x = true := by
        rw [hrdef]
        exact dropWhile_decomp pySpace l
      set r2 := r.dropWhile (fun c => c == '#') with hr2def
      obtain ⟨ks, hrks, hksp⟩ : ∃ ks, r = ks ++ r2 ∧ ∀ x ∈ ks, (x == '#') = true := by
        rw [hr2def]
        exact dropWhile_decomp _ r
      set r3 := r2.dropWhile pySpace with hr3def
      obtain ⟨w2, hr2w, hw2⟩ : ∃ w2, r2 = w2 ++ r3 ∧ ∀ x ∈ w2, pySpace x = true := by
        rw [hr3def]
        exact dropWhile_decomp pySpace r2
      have hksne : ks ≠ [] := by
        intro hksnil
        rw [hksnil, List.nil_append] at hrks
        cases hr2c : r2 with
        | nil => rw [hrks, hr2c] at hh; simp at hh
        | cons x xs =>
          have hx := @dropWhile_head_not Char (fun c => c == '#') r x xs (by rw [← hr2def, hr2c])
          rw [hrks, hr2c] at hh
          simp only [List.head?_cons, Option.some_inj] at hh
          rw [hh] at hx
          simp at hx
      have hksall : ∀ x ∈ ks, x = '#' := by
        intro x hx
        have := hksp x hx
        simpa using this
      obtain ⟨lit, tl, hsplit, hceq⟩ := (caselessStartsWith_iff r3 _).mp hcsw
      have hlitlen : lit.length = 16 := by
        rw [caselessEqL_length hceq, hplen]
      have h16 : r3.drop 16 = tl := by
        rw [hsplit, ← hlitlen, List.drop_left]
      rw [h16] at hall
      refine Or.inl ⟨w1, ks, w2, lit, tl, ?_, hw1, hksne, hksall, hw2, hceq,
        List.all_eq_true.mp hall⟩
      rw [hl, hrks, hr2w, hsplit]
      simp
    · rw [Bool.and_eq_true] at h2
      obtain ⟨hcsw, hcol⟩ := h2
      set r := l.dropWhile pySpace with hrdef
      obtain ⟨w1, hl, hw1⟩ : ∃ w, l = w ++ r ∧ ∀ x ∈ w, pySpace x = true := by
        rw [hrdef]
        exact dropWhile_decomp pySpace l
      obtain ⟨lit, rest, hsplit, hceq⟩ := (caselessStartsWith_iff r _).mp hcsw
      have hlitlen : lit.length = 16 := by
        rw [caselessEqL_length hceq, hplen]
      have h16 : r.drop 16 = rest := by
        rw [hsplit, ← hlitlen, List.drop_left]
      rw [h16] at hcol
      set r4 := rest.dropWhile pySpace with hr4def
      obtain ⟨w2, hrw2, hw2⟩ : ∃ w2, rest = w2 ++ r4 ∧ ∀ x ∈ w2, pySpace x = true := by
        rw [hr4def]
        exact dropWhile_decomp pySpace rest
      rw [Bool.or_eq_true] at hcol
      rcases hcol with hempty | hcolon
      · have hr4nil : r4 = [] := by
          cases hr4c : r4 with
          | nil => rfl
          | cons x xs => rw [hr4c] at hempty; simp at hempty
        refine Or.inr ⟨w1, lit, w2, [], ?_, hw1, hceq, hw2, Or.inl rfl⟩
        rw [hl, hsplit, hrw2, hr4nil]
        simp
      · rw [Bool.and_eq_true] at hcolon
        obtain ⟨hhd, htl⟩ := hcolon
        have hhd' : r4.head? = some ':' := by simpa using hhd
        cases hr4c : r4 with
        | nil => rw [hr4c] at hhd'; simp at hhd'
        | cons x xs =>
          rw [hr4c] at hhd'
          simp only [List.head?_cons, Option.some_inj] at hhd'
          subst hhd'
          rw [hr4c] at htl
          simp only [List.tail_cons] at htl
          refine Or.inr ⟨w1, lit, w2, ':' :: xs, ?_, hw1, hceq, hw2,
            Or.inr ⟨xs, rfl, List.all_eq_true.mp htl⟩⟩
          rw [hl, hsplit, hrw2, hr4c]
          simp
  · rintro (⟨w1, ks, w2, lit, tl, rfl, hw1, hksne, hks, hw2, hceq, htl⟩ |
      ⟨w1, lit, w2, ct, rfl, hw1, hceq, hw2, hct⟩)
    · cases ks with
      | nil => exact absurd rfl hksne
      | cons k ks' =>
        have hk : k = '#' := hks k (by simp)
        subst hk
        obtain ⟨lc, lit', hlit⟩ : ∃ lc lit', lit = lc :: lit' := by
          cases hl0 : lit with
          | nil => exact absurd hl0 (caselessEqL_ne_nil hceq (by decide))
          | cons a b => exact ⟨a, b, rfl⟩
        have hlc : lowCh lc = 'p' := by
          have hceq2 := hceq
          rw [hlit] at hceq2
          rw [show ("Post-apply steps".data : List Char) =
            'P' :: "ost-apply steps".data from by decide] at hceq2
          rw [caselessEqL, Bool.and_eq_true, beq_iff_eq] at hceq2
          rw [hceq2.1]
          decide
        have hlcws : pySpace lc = false := pySpace_eq_false_of_lowCh hlc (by decide)
        have hlchash : lc ≠ '#' := ne_hash_of_lowCh hlc
        have happ : (w1 ++ '#' :: ks' ++ w2 ++ lit ++ tl : List Char) =
            w1 ++ '#' :: (ks' ++ (w2 ++ (lit ++ tl))) := by simp
        rw [happ]
        simp only [isHeadingLine]
        have hdw : (w1 ++ '#' :: (ks' ++ (w2 ++ (lit ++ tl)))).dropWhile pySpace =
            '#' :: (ks' ++ (w2 ++ (lit ++ tl))) := by
          rw [dropWhile_append_all hw1]
          apply dropWhile_eq_self_of_head
          intro x hx
          simp only [List.head?_cons, Option.some_inj] at hx
          subst hx
          decide
        rw [hdw]
        rw [if_pos (by simp)]
        have hd2 : ('#' :: (ks' ++ (w2 ++ (lit ++ tl)))).dropWhile (fun c => c == '#') =
            w2 ++ (lit ++ tl) := by
          rw [List.dropWhile_cons, if_pos (by decide)]
          rw [dropWhile_append_all (fun x hx => by rw [beq_iff_eq]; exact hks x (by simp [hx]))]
          apply dropWhile_eq_self_of_head
          intro x hx
          cases w2 with
          | nil =>
            rw [hlit] at hx
            simp only [List.nil_append, List.cons_append, List.head?_cons,
              Option.some_inj] at hx
            rw [← hx]
            exact beq_eq_false_iff_ne.mpr hlchash
          | cons wc w2' =>
            simp only [List.cons_append, List.head?_cons, Option.some_inj] at hx
            rw [← hx]
            have hwc : pySpace wc = true := hw2 wc (by simp)
            rw [beq_eq_false_iff_ne]
            intro hxh
            rw [hxh] at hwc
            exact absurd hwc (by decide)
        rw [hd2]
        have hd3 : (w2 ++ (lit ++ tl)).dropWhile pySpace = lit ++ tl := by
          rw [dropWhile_append_all hw2]
          apply dropWhile_eq_self_of_head
          intro x hx
          rw [hlit] at hx
          simp only [List.cons_append, List.head?_cons, Option.some_inj] at hx
          subst hx
          exact hlcws
        rw [hd3]
        rw [Bool.or_eq_true]
        left
        rw [Bool.and_eq_true]
        refine ⟨caselessEqL_append_sw tl hceq, ?_⟩
        have hlitlen : lit.length = 16 := by
          rw [caselessEqL_length hceq, hplen]
        rw [show (16 : Nat) = lit.length from hlitlen.symm, List.drop_left]
        exact List.all_eq_true.mpr htl
    · obtain ⟨lc, lit', hlit⟩ : ∃ lc lit', lit = lc :: lit' := by
        cases hl0 : lit with
        | nil => exact absurd hl0 (caselessEqL_ne_nil hceq (by decide))
        | cons a b => exact ⟨a, b, rfl⟩
      have hlc : lowCh lc = 'p' := by
        have hceq2 := hceq
        rw [hlit] at hceq2
        rw [show ("Post-apply steps".data : List Char) =
          'P' :: "ost-apply steps".data from by decide] at hceq2
        rw [caselessEqL, Bool.and_eq_true, beq_iff_eq] at hceq2
        rw [hceq2.1]
        decide
      have hlcws : pySpace lc = false := pySpace_eq_false_of_lowCh hlc (by decide)
      have happ : (w1 ++ lit ++ w2 ++ ct : List Char) = w1 ++ (lit ++ (w2 ++ ct)) := by
        simp
      rw [happ]
      simp only [isHeadingLine]
      have hdw : (w1 ++ (lit ++ (w2 ++ ct))).dropWhile pySpace = lit ++ (w2 ++ ct) := by
        rw [dropWhile_append_all hw1]
        apply dropWhile_eq_self_of_head
        intro x hx
        rw [hlit] at hx
        simp only [List.cons_append, List.head?_cons, Option.some_inj] at hx
        subst hx
        exact hlcws
      rw [hdw]
      rw [Bool.or_eq_true]
      right
      rw [Bool.and_eq_true]
      constructor
      · exact caselessEqL_append_sw (w2 ++ ct) hceq
      · have hlitlen : lit.length = 16 := by
          rw [caselessEqL_length hceq, hplen]
        rw [show (16 : Nat) = lit.length from hlitlen.symm, List.drop_left]
        rw [dropWhile_append_all hw2]
        rcases hct with rfl | ⟨w3, rfl, hw3⟩
        · simp
        · rw [List.dropWhile_cons, if_neg (by decide)]
          rw [Bool.or_eq_true]
          right
          rw [Bool.and_eq_true]
          refine ⟨by simp, ?_⟩
          rw [List.tail_cons]
          exact List.all_eq_true.mpr hw3

theorem findHeading_eq_none_iff (ls : List (List Char)) :
    findHeading ls = none ↔ ∀ l ∈ ls, isHeadingLine l = false := by
  induction ls with
  | nil => simp [findHeading]
  | cons a as ih =>
    by_cases h : isHeadingLine a = true
    · simp only [findHeading, h, if_true]
      constructor
      · intro hfalse
        exact absurd hfalse (by simp)
      · intro hall
        have := hall a (by simp)
        rw [h] at this
        cases this
    · rw [Bool.not_eq_true] at h
      simp only [findHeading, h, Bool.false_eq_true, if_false, ih]
      constructor
      · intro hall l hl
        rcases List.mem_cons.mp hl with rfl | hmem
        · exact h
        · exact hall l hmem
      · intro hall l hl
        exact hall l (by simp [hl])

theorem findHeading_eq_some_iff (ls rest : List (List Char)) :
    findHeading ls = some rest ↔
      ∃ i li, ls.get? i = some li ∧ isHeadingLine li = true ∧
        (∀ j lj, j < i → ls.get? j = some lj → isHeadingLine lj = false) ∧
        rest = ls.drop (i + 1) := by
  induction ls generalizing rest with
  | nil =>
    constructor
    · intro h
      simp [findHeading] at h
    · rintro ⟨i, li, hget, -⟩
      simp at hget
  | cons a as ih =>
    by_cases h : isHeadingLine a = true
    · simp only [findHeading, h, if_true, Option.some_inj]
      constructor
      · rintro rfl
        exact ⟨0, a, rfl, h, fun j lj hj => absurd hj (Nat.not_lt_zero _), rfl⟩
      · rintro ⟨i, li, hget, hli, hmin, rfl⟩
        cases i with
        | zero => rfl
        | succ i =>
          have := hmin 0 a (Nat.succ_pos _) rfl
          rw [h] at this
          cases this
    · rw [Bool.not_eq_true] at h
      simp only [findHeading, h, Bool.false_eq_true, if_false, ih]
      constructor
      · rintro ⟨i, li, hget, hli, hmin, rfl⟩
        refine ⟨i + 1, li, hget, hli, ?_, rfl⟩
        intro j lj hj hgj
        cases j with
        | zero =>
          injection hgj with hgj
          rw [← hgj]
          exact h
        | succ j => exact hmin j lj (Nat.lt_of_succ_lt_succ hj) hgj
      · rintro ⟨i, li, hget, hli, hmin, rfl⟩
        cases i with
        | zero =>
          injection hget with hget
          rw [hget] at h
          rw [h] at hli
          cases hli
        | succ i =>
          exact ⟨i, li, hget, hli,
            fun j lj hj hgj => hmin (j + 1) lj (Nat.succ_lt_succ hj) hgj, rfl⟩

/-- Counterexample to C7 as stated: the heading form combining leading
markers WITH a trailing colon is matched by neither source pattern, so the
extractor returns `None` where the claim prescribes `some "run tests"`. -/
theorem steps_heading_hash_colon_missed :
    claimIsHeading ("# Post-apply steps:".data) = true ∧
      extract_post_apply_steps ("# Post-apply steps:\nrun tests".data) = none := by
  decide

/-- C7 (amended): `_extract_post_apply_steps` finds the first line that is a
"Post-apply steps" heading — either with leading heading markers and NO
trailing colon, or without markers and with an optional trailing colon,
case-insensitively — then returns the subsequent lines up to the first line
consisting of optional whitespace, one or more markers, optional whitespace
and a non-whitespace character (or end of text), trimmed; `None` when no
heading line exists or the collected text trims to empty. -/
theorem extract_steps_characterization :
    ∀ t : List Char, stepsSpec t (extract_post_apply_steps t) := by
  intro t
  unfold stepsSpec
  cases hfh : findHeading (splitlines t) with
  | none =>
    left
    refine ⟨by simp [extract_post_apply_steps, hfh], ?_⟩
    intro l hl hp
    have hfalse := (findHeading_eq_none_iff _).mp hfh l hl
    have htrue := (isHeadingLine_iff l).mpr hp
    rw [hfalse] at htrue
    cases htrue
  | some rest =>
    right
    obtain ⟨i, li, hget, hhl, hmin, rfl⟩ := (findHeading_eq_some_iff _ _).mp hfh
    refine ⟨i, li, hget, (isHeadingLine_iff li).mp hhl, ?_,
      ((splitlines t).drop (i + 1)).takeWhile (fun l => !isStopLine l),
      ((splitlines t).drop (i + 1)).dropWhile (fun l => !isStopLine l),
      (List.takeWhile_append_dropWhile _ _).symm, ?_, ?_, ?_⟩
    · intro j lj hj hgj hp
      have hfalse := hmin j lj hj hgj
      have htrue := (isHeadingLine_iff lj).mpr hp
      rw [hfalse] at htrue
      cases htrue
    · intro l hl hp
      have h1 := mem_of_takeWhile hl
      rw [Bool.not_eq_true'] at h1
      have htrue := (isStopLine_iff l).mpr hp
      rw [h1] at htrue
      cases htrue
    · cases hdp : ((splitlines t).drop (i + 1)).dropWhile (fun l => !isStopLine l) with
      | nil => exact Or.inl rfl
      | cons l0 rest2 =>
        refine Or.inr ⟨l0, rest2, rfl, (isStopLine_iff l0).mp ?_⟩
        have h0 := dropWhile_head_not hdp
        simpa using h0
    · have hres : extract_post_apply_steps t =
          (if (stripL (joinNL (((splitlines t).drop (i + 1)).takeWhile
              (fun l => !isStopLine l)))).isEmpty then none
           else some (stripL (joinNL (((splitlines t).drop (i + 1)).takeWhile
              (fun l => !isStopLine l))))) := by
        simp [extract_post_apply_steps, hfh]
      rw [hres]
      by_cases he : stripL (joinNL (((splitlines t).drop (i + 1)).takeWhile
          (fun l => !isStopLine l))) = []
      · rw [he]
        simp
      · rw [if_neg he, if_neg (by simpa using he)]

/-! ## splitlines and join: structural lemmas (for claims C3, C4, C9) -/

theorem splitlinesGo_nl (rest acc : List Char) :
    splitlinesGo ('\n' :: rest) acc = acc.reverse :: splitlinesGo rest [] := by
  cases rest with
  | nil =>
    simp only [splitlinesGo]
    rw [if_pos (by decide : isLineBoundary '\n' = true)]
    simp [splitlinesGo]
  | cons d rest' =>
    simp only [splitlinesGo]
    have hc1 : ¬('\n' = '\r' ∧ d = '\n') := fun h => absurd h.1 (by decide)
    rw [if_neg hc1, if_pos (by decide : isLineBoundary '\n' = true)]

theorem splitlinesGo_append_nl {l : List Char}
    (hbf : ∀ c ∈ l, isLineBoundary c = false) (rest acc : List Char) :
    splitlinesGo (l ++ '\n' :: rest) acc = (acc.reverse ++ l) :: splitlinesGo rest [] := by
  induction l generalizing acc with
  | nil =>
    show splitlinesGo ('\n' :: rest) acc = _
    rw [splitlinesGo_nl]
    simp
  | cons a l' ih =>
    have ha : isLineBoundary a = false := hbf a (by simp)
    have har : a ≠ '\r' := by
      intro hr
      rw [hr] at ha
      exact absurd ha (by decide)
    have hc2 : ¬(isLineBoundary a = true) := by simp [ha]
    cases l' with
    | nil =>
      show splitlinesGo (a :: '\n' :: rest) acc = _
      simp only [splitlinesGo]
      have hc1 : ¬(a = '\r' ∧ True) := fun h => absurd h.1 har
      rw [if_neg hc1, if_neg hc2]
      rw [splitlinesGo_nl]
      simp
    | cons b l'' =>
      show splitlinesGo (a :: ((b :: l'') ++ '\n' :: rest)) acc = _
      have hstep : splitlinesGo (a :: ((b :: l'') ++ '\n' :: rest)) acc =
          splitlinesGo ((b :: l'') ++ '\n' :: rest) (a :: acc) := by
        simp only [List.cons_append, splitlinesGo]
        have hc1 : ¬(a = '\r' ∧ b = '\n') := fun h => absurd h.1 har
        rw [if_neg hc1, if_neg hc2]
        rfl
      rw [hstep, ih (fun c hc => hbf c (by simp [hc]))]
      simp

theorem splitlinesGo_no_boundary {l : List Char}
    (hbf : ∀ c ∈ l, isLineBoundary c = false) (acc : List Char) :
    splitlinesGo l acc = if (acc.reverse ++ l).isEmpty then [] else [acc.reverse ++ l] := by
  induction l generalizing acc with
  | nil => simp [splitlinesGo]
  | cons a l' ih =>
    have ha : isLineBoundary a = false := hbf a (by simp)
    have har : a ≠ '\r' := by
      intro hr
      rw [hr] at ha
      exact absurd ha (by decide)
    have hc2 : ¬(isLineBoundary a = true) := by simp [ha]
    rw [if_neg (by simp)]
    cases l' with
    | nil =>
      simp only [splitlinesGo]
      rw [if_neg hc2]
      simp
    | cons b l'' =>
      have hstep : splitlinesGo (a :: b :: l'') acc =
          splitlinesGo (b :: l'') (a :: acc) := by
        simp only [splitlinesGo]
        have hc1 : ¬(a = '\r' ∧ b = '\n') := fun h => absurd h.1 har
        rw [if_neg hc1, if_neg hc2]
      rw [hstep, ih (fun c hc => hbf c (by simp [hc]))]
      rw [if_neg (by simp)]
      simp

theorem splitlinesGo_mem_nb : ∀ (t acc : List Char),
    (∀ c ∈ acc, isLineBoundary c = false) →
    ∀ l ∈ splitlinesGo t acc, ∀ c ∈ l, isLineBoundary c = false := by
  intro t acc
  induction t, acc using splitlinesGo.induct with
  | case1 acc he =>
    intro hacc l hl
    simp only [splitlinesGo] at hl
    rw [if_pos he] at hl
    simp at hl
  | case2 acc he =>
    intro hacc l hl c hc
    simp only [splitlinesGo] at hl
    rw [if_neg he] at hl
    simp only [List.mem_singleton] at hl
    subst hl
    exact hacc c (List.mem_reverse.mp hc)
  | case3 c acc hb =>
    intro hacc l hl x hx
    simp only [splitlinesGo] at hl
    rw [if_pos hb] at hl
    simp only [List.mem_singleton] at hl
    subst hl
    exact hacc x (List.mem_reverse.mp hx)
  | case4 c acc hb =>
    intro hacc l hl x hx
    simp only [splitlinesGo] at hl
    rw [if_neg hb] at hl
    simp only [List.mem_singleton] at hl
    subst hl
    rw [List.mem_reverse] at hx
    rcases List.mem_cons.mp hx with rfl | hx2
    · rw [Bool.not_eq_true] at hb
      exact hb
    · exact hacc x hx2
  | case5 c d rest acc h ih =>
    intro hacc l hl x hx
    simp only [splitlinesGo] at hl
    rw [if_pos h] at hl
    rcases List.mem_cons.mp hl with rfl | hl2
    · exact hacc x (List.mem_reverse.mp hx)
    · exact ih (by simp) l hl2 x hx
  | case6 c d rest acc hc1 hb ih =>
    intro hacc l hl x hx
    simp only [splitlinesGo] at hl
    rw [if_neg hc1, if_pos hb] at hl
    rcases List.mem_cons.mp hl with rfl | hl2
    · exact hacc x (List.mem_reverse.mp hx)
    · exact ih (by simp) l hl2 x hx
  | case7 c d rest acc hc1 hb ih =>
    intro hacc l hl x hx
    simp only [splitlinesGo] at hl
    rw [if_neg hc1, if_neg hb] at hl
    refine ih ?_ l hl x hx
    intro y hy
    rcases List.mem_cons.mp hy with rfl | hy2
    · rw [Bool.not_eq_true] at hb
      exact hb
    · exact hacc y hy2

theorem splitlines_nb (t : List Char) :
    ∀ l ∈ splitlines t, ∀ c ∈ l, isLineBoundary c = false :=
  splitlinesGo_mem_nb t [] (by simp)

theorem splitlines_joinNL_nl {ls : List (List Char)} (hne : ls ≠ [])
    (hbf : ∀ l ∈ ls, ∀ c ∈ l, isLineBoundary c = false) :
    splitlines (joinNL ls ++ ['\n']) = ls := by
  induction ls with
  | nil => exact absurd rfl hne
  | cons l ls' ih =>
    cases ls' with
    | nil =>
      show splitlinesGo (l ++ '\n' :: []) [] = [l]
      rw [splitlinesGo_append_nl (hbf l (by simp))]
      simp [splitlinesGo]
    | cons l2 ls'' =>
      show splitlinesGo ((l ++ '\n' :: joinNL (l2 :: ls'')) ++ ['\n']) [] = l :: l2 :: ls''
      rw [show (l ++ '\n' :: joinNL (l2 :: ls'')) ++ ['\n'] =
        l ++ '\n' :: (joinNL (l2 :: ls'') ++ ['\n']) by simp]
      rw [splitlinesGo_append_nl (hbf l (by simp))]
      have := ih (by simp) (fun l' hl' => hbf l' (by simp [hl']))
      rw [splitlines] at this
      rw [this]
      simp

theorem splitlines_joinNL {ls : List (List Char)} (hne : ls ≠ [])
    (hbf : ∀ l ∈ ls, ∀ c ∈ l, isLineBoundary c = false)
    (hlast : ls.getLast? ≠ some []) :
    splitlines (joinNL ls) = ls := by
  induction ls with
  | nil => exact absurd rfl hne
  | cons l ls' ih =>
    cases ls' with
    | nil =>
      show splitlinesGo l [] = [l]
      rw [splitlinesGo_no_boundary (hbf l (by simp))]
      have hlne : l ≠ [] := by
        intro hn
        rw [hn] at hlast
        exact hlast (by simp)
      rw [if_neg (by simpa using hlne)]
      simp
    | cons l2 ls'' =>
      show splitlinesGo (l ++ '\n' :: joinNL (l2 :: ls'')) [] = l :: l2 :: ls''
      rw [splitlinesGo_append_nl (hbf l (by simp))]
      have := ih (by simp) (fun l' hl' => hbf l' (by simp [hl']))
        (by rwa [List.getLast?_cons_cons] at hlast)
      rw [splitlines] at this
      rw [this]
      simp

theorem joinNL_append_nil_last {ls : List (List Char)} (hne : ls ≠ []) :
    joinNL (ls ++ [[]]) = joinNL ls ++ ['\n'] := by
  induction ls with
  | nil => exact absurd rfl hne
  | cons l ls' ih =>
    cases ls' with
    | nil => simp [joinNL]
    | cons l2 ls'' =>
      show joinNL (l :: ((l2 :: ls'') ++ [[]])) = (l ++ '\n' :: joinNL (l2 :: ls'')) ++ ['\n']
      rw [show joinNL (l :: ((l2 :: ls'') ++ [[]])) =
        l ++ '\n' :: joinNL ((l2 :: ls'') ++ [[]]) from rfl]
      rw [ih (by simp)]
      simp

/-! ## Sanitizer structural lemmas -/

theorem mem_rstripL {x : Char} {l : List Char} (hx : x ∈ rstripL l) : x ∈ l := by
  unfold rstripL at hx
  rw [List.mem_reverse] at hx
  have := (List.dropWhile_sublist pySpace).mem hx
  rwa [List.mem_reverse] at this

theorem mem_stripL {x : Char} {l : List Char} (hx : x ∈ stripL l) : x ∈ l := by
  unfold stripL lstripL at hx
  exact (List.dropWhile_sublist pySpace).mem (mem_rstripL hx)


theorem mem_stripUserinfoAt {x : Char} {url : List Char} {n : Nat}
    (hx : x ∈ stripUserinfoAt url n) : x ∈ url := by
  simp only [stripUserinfoAt] at hx
  repeat' split at hx
  all_goals first
    | exact hx
    | (rcases List.mem_append.mp hx with hmem | hmem
       · exact (List.take_sublist n url).mem hmem
       · exact ((((List.dropLast_sublist _).trans (List.tail_sublist _)).trans
           (List.drop_sublist _ _)).trans (List.drop_sublist _ _)).mem hmem)
    | (rcases List.mem_append.mp hx with hmem | hmem
       · exact (List.take_sublist n url).mem hmem
       · exact (((List.tail_sublist _).trans
           (List.drop_sublist _ _)).trans (List.drop_sublist _ _)).mem hmem)

theorem mem_stripUserinfo {x : Char} {u : List Char} (hx : x ∈ stripUserinfo u) :
    x ∈ u := by
  simp only [stripUserinfo] at hx
  split at hx
  · exact mem_stripUserinfoAt hx
  · split at hx
    · exact mem_stripUserinfoAt hx
    · exact hx

theorem parseUrlLine_shape {l p u s : List Char}
    (h : parseUrlLine l = some (p, u, s)) :
    l = p ++ u ++ s ∧ u ≠ [] ∧ (∀ c ∈ u, pySpace c = false) ∧
    (∀ c ∈ s, pySpace c = true) ∧
    ∃ a1 a2 a3, p = a1 ++ "url".data ++ a2 ++ '=' :: a3 ∧
      (∀ c ∈ a1, pySpace c = true) ∧ (∀ c ∈ a2, pySpace c = true) ∧
      (∀ c ∈ a3, pySpace c = true) := by
  simp only [parseUrlLine] at h
  set ws1 := l.takeWhile pySpace with hws1
  set r1 := l.dropWhile pySpace with hr1
  set r2 := r1.drop 3 with hr2
  set ws2 := r2.takeWhile pySpace with hws2
  set r3 := r2.dropWhile pySpace with hr3
  set r4 := r3.tail with hr4
  set ws3 := r4.takeWhile pySpace with hws3
  set r5 := r4.dropWhile pySpace with hr5
  set tok := r5.takeWhile (fun c => !pySpace c) with htok
  set r6 := r5.dropWhile (fun c => !pySpace c) with hr6
  split at h
  case isFalse => cases h
  rename_i h1
  split at h
  case isFalse => cases h
  rename_i h2
  split at h
  case isTrue => cases h
  rename_i h3
  split at h
  case isFalse => cases h
  rename_i h4
  injection h with h5
  rw [Prod.mk.injEq] at h5
  obtain ⟨hp, h6⟩ := h5
  rw [Prod.mk.injEq] at h6
  obtain ⟨hu, hs⟩ := h6
  subst hp hu hs
  obtain ⟨rr, hrr⟩ : ∃ rr, r1 = "url".data ++ rr := by
    rw [startsWithL_iff] at h1
    obtain ⟨t2, ht2⟩ := h1
    exact ⟨t2, ht2.symm⟩
  have hr2rr : r2 = rr := by
    rw [hr2, hrr, show (3 : Nat) = ("url".data : List Char).length from by decide,
      List.drop_left]
  obtain ⟨r4', hr3c⟩ : ∃ r4', r3 = '=' :: r4' := by
    cases hc : r3 with
    | nil => rw [hc] at h2; simp at h2
    | cons a as =>
      rw [hc] at h2
      simp only [List.head?_cons, Option.some_inj] at h2
      subst h2
      exact ⟨as, rfl⟩
  have hr4c : r4 = r4' := by rw [hr4, hr3c, List.tail_cons]
  have hl1 : l = ws1 ++ r1 := by
    rw [hws1, hr1, List.takeWhile_append_dropWhile]
  have hl2 : r2 = ws2 ++ r3 := by
    rw [hws2, hr3, List.takeWhile_append_dropWhile]
  have hl3 : r4 = ws3 ++ r5 := by
    rw [hws3, hr5, List.takeWhile_append_dropWhile]
  have hl4 : r5 = tok ++ r6 := by
    rw [htok, hr6, List.takeWhile_append_dropWhile]
  refine ⟨?_, by simpa using h3, ?_, List.all_eq_true.mp h4,
    ws1, ws2, ws3, rfl, fun c hc => mem_of_takeWhile (hws1 ▸ hc),
    fun c hc => mem_of_takeWhile (hws2 ▸ hc), fun c hc => mem_of_takeWhile (hws3 ▸ hc)⟩
  · rw [hl1, hrr, ← hr2rr, hl2, hr3c, ← hr4c, hl3, hl4]
    simp
  · intro c hc
    have := mem_of_takeWhile (htok ▸ hc)
    simpa using this

theorem sanitize_line_nb {l : List Char}
    (hbf : ∀ c ∈ l, isLineBoundary c = false) :
    ∀ c ∈ sanitize_line l, isLineBoundary c = false := by
  intro c hc
  unfold sanitize_line at hc
  split at hc
  · split at hc
    · rcases List.mem_append.mp hc with hm | hm
      · exact hbf c ((List.takeWhile_sublist _).mem hm)
      · exact (show ∀ x ∈ ("= <redacted>".data : List Char), isLineBoundary x = false
          from by decide) c hm
    · exact (show ∀ x ∈ ("<redacted>".data : List Char), isLineBoundary x = false
        from by decide) c hc
  · split at hc
    · rename_i pre url suf hp
      obtain ⟨hl, -, -, -, -⟩ := parseUrlLine_shape hp
      have hm := mem_rstripL hc
      rcases List.mem_append.mp hm with hm1 | hm2
      · rcases List.mem_append.mp hm1 with hm3 | hm4
        · exact hbf c (by
            rw [hl]
            exact List.mem_append.mpr (Or.inl (List.mem_append.mpr (Or.inl hm3))))
        · exact hbf c (by
            rw [hl]
            exact List.mem_append.mpr
              (Or.inl (List.mem_append.mpr (Or.inr (mem_stripUserinfo hm4)))))
      · exact hbf c (by
          rw [hl]
          exact List.mem_append.mpr (Or.inr hm2))
    · exact hbf c (mem_rstripL hc)

theorem splitlinesGo_ne_nil : ∀ (t acc : List Char),
    t ≠ [] ∨ acc ≠ [] → splitlinesGo t acc ≠ [] := by
  intro t acc
  induction t, acc using splitlinesGo.induct with
  | case1 acc he =>
    intro h
    rcases h with h | h
    · exact absurd rfl h
    · exact absurd (by simpa using he) h
  | case2 acc he =>
    intro _
    simp only [splitlinesGo]
    rw [if_neg he]
    simp
  | case3 c acc hb =>
    intro _
    simp only [splitlinesGo]
    rw [if_pos hb]
    simp
  | case4 c acc hb =>
    intro _
    simp only [splitlinesGo]
    rw [if_neg hb]
    simp
  | case5 c d rest acc h ih =>
    intro _
    simp only [splitlinesGo]
    rw [if_pos h]
    simp
  | case6 c d rest acc hc1 hb ih =>
    intro _
    simp only [splitlinesGo]
    rw [if_neg hc1, if_pos hb]
    simp
  | case7 c d rest acc hc1 hb ih =>
    intro _
    simp only [splitlinesGo]
    rw [if_neg hc1, if_neg hb]
    exact ih (Or.inr (by simp))

theorem splitlines_ne_nil {t : List Char} (ht : t ≠ []) : splitlines t ≠ [] :=
  splitlinesGo_ne_nil t [] (Or.inl ht)

theorem sanitize_out_splitlines (raw : List Char) :
    (raw.getLast? = some '\n' →
       splitlines (sanitize_git_config raw) = (splitlines raw).map sanitize_line) ∧
    (raw.getLast? ≠ some '\n' →
       ((splitlines raw).map sanitize_line).getLast? ≠ some [] →
       splitlines (sanitize_git_config raw) = (splitlines raw).map sanitize_line) ∧
    (raw.getLast? ≠ some '\n' →
       ((splitlines raw).map sanitize_line).getLast? = some [] →
       splitlines (sanitize_git_config raw) =
         ((splitlines raw).map sanitize_line).dropLast) := by
  have hbfls : ∀ l ∈ (splitlines raw).map sanitize_line, ∀ c ∈ l,
      isLineBoundary c = false := by
    intro l hl
    obtain ⟨l0, hl0, rfl⟩ := List.mem_map.mp hl
    exact sanitize_line_nb (splitlines_nb raw l0 hl0)
  refine ⟨?_, ?_, ?_⟩
  · intro hnl
    unfold sanitize_git_config
    rw [if_pos hnl]
    have hrne : raw ≠ [] := by
      intro hr
      rw [hr] at hnl
      simp at hnl
    have hne : (splitlines raw).map sanitize_line ≠ [] := by
      simp only [ne_eq, List.map_eq_nil_iff]
      exact splitlines_ne_nil hrne
    exact splitlines_joinNL_nl hne hbfls
  · intro hnl hlast
    unfold sanitize_git_config
    rw [if_neg hnl, List.append_nil]
    cases hls : (splitlines raw).map sanitize_line with
    | nil => simp [joinNL, splitlines, splitlinesGo]
    | cons a as =>
      rw [hls] at hbfls hlast
      exact splitlines_joinNL (by simp) hbfls hlast
  · intro hnl hlast
    unfold sanitize_git_config
    rw [if_neg hnl, List.append_nil]
    cases hls : (splitlines raw).map sanitize_line with
    | nil =>
      rw [hls] at hlast
      simp at hlast
    | cons a as =>
      rw [hls] at hbfls hlast
      cases as with
      | nil =>
        have ha : a = [] := by simpa using hlast
        subst ha
        simp [joinNL, splitlines, splitlinesGo]
      | cons b as' =>
        have hgl : (a :: b :: as').getLast (by simp) = [] := by
          have h2 := List.getLast?_eq_getLast (a :: b :: as') (by simp)
          rw [h2] at hlast
          exact Option.some_inj.mp hlast
        have hdecomp : a :: b :: as' = (a :: b :: as').dropLast ++ [[]] := by
          conv_lhs => rw [← List.dropLast_append_getLast
            (show (a :: b :: as' : List (List Char)) ≠ [] by simp)]
          rw [hgl]
        have hdne : (a :: b :: as').dropLast ≠ [] := by simp
        rw [show joinNL (a :: b :: as') =
            joinNL ((a :: b :: as').dropLast ++ [[]]) from by rw [← hdecomp]]
        rw [joinNL_append_nil_last hdne]
        refine splitlines_joinNL_nl hdne ?_
        intro l hl
        exact hbfls l ((List.dropLast_sublist _).mem hl)

theorem rstripL_eq_nil_iff {l : List Char} :
    rstripL l = [] ↔ ∀ c ∈ l, pySpace c = true := by
  unfold rstripL
  rw [List.reverse_eq_nil_iff, List.dropWhile_eq_nil_iff]
  constructor
  · intro h c hc
    exact h c (List.mem_reverse.mpr hc)
  · intro h c hc
    exact h c (List.mem_reverse.mp hc)

theorem stripUserinfoAt_ne_nil {u : List Char} {n : Nat} (h : u ≠ []) :
    stripUserinfoAt u n ≠ [] := by
  simp only [stripUserinfoAt]
  intro hnil
  repeat' split at hnil
  all_goals first
    | exact h hnil
    | (rename_i hcond
       rw [List.append_eq_nil] at hnil
       exact hcond.2.1 hnil.2)

theorem stripUserinfo_ne_nil {u : List Char} (h : u ≠ []) : stripUserinfo u ≠ [] := by
  simp only [stripUserinfo]
  split
  · exact stripUserinfoAt_ne_nil h
  · split
    · exact stripUserinfoAt_ne_nil h
    · exact h

theorem sanitize_line_ne_nil {l : List Char} (h : l.all pySpace = false) :
    sanitize_line l ≠ [] := by
  unfold sanitize_line
  split
  · split
    · intro hnil
      rw [List.append_eq_nil] at hnil
      cases hnil.2
    · intro hnil
      cases hnil
  · split
    · rename_i pre url suf hp
      obtain ⟨-, hune, hunw, -, -⟩ := parseUrlLine_shape hp
      intro hnil
      rw [rstripL_eq_nil_iff] at hnil
      obtain ⟨c, hc⟩ := List.exists_mem_of_ne_nil _ (stripUserinfo_ne_nil hune)
      have hcu : c ∈ url := mem_stripUserinfo hc
      have h1 := hnil c (List.mem_append.mpr (Or.inl (List.mem_append.mpr (Or.inr hc))))
      have h2 := hunw c hcu
      rw [h1] at h2
      cases h2
    · intro hnil
      rw [rstripL_eq_nil_iff] at hnil
      rw [← List.all_eq_true] at hnil
      rw [hnil] at h
      cases h

/-- Counterexample to C9 as stated: the input `"a\n "` has two lines; its
sanitized output `"a\n"` has one — the sanitizer drops the final line when it
rstrips to empty and the input has no trailing newline. -/
theorem sanitize_line_count_counterexample :
    (splitlines ("a\n ".data)).length = 2 ∧
      (splitlines (sanitize_git_config ("a\n ".data))).length = 1 := by
  decide

/-- C9 (amended): the Secret Sanitizer emits exactly one output line per
input line whenever the input is empty, ends with a newline, or its final
line is not whitespace-only.  (When the final line is whitespace-only and no
trailing newline is present, that line is dropped, as the counterexample
shows.) -/
theorem sanitize_preserves_line_count :
    ∀ raw : List Char,
      (raw = [] ∨ raw.getLast? = some '\n' ∨
        (∃ ll, (splitlines raw).getLast? = some ll ∧ ll.all pySpace = false)) →
      (splitlines (sanitize_git_config raw)).length = (splitlines raw).length := by
  intro raw hcase
  by_cases hnl : raw.getLast? = some '\n'
  · rw [(sanitize_out_splitlines raw).1 hnl, List.length_map]
  · rcases hcase with rfl | hnl2 | ⟨ll, hll, hws⟩
    · decide
    · exact absurd hnl2 hnl
    · have hlast : ((splitlines raw).map sanitize_line).getLast? ≠ some [] := by
        rw [List.getLast?_map, hll]
        simp only [Option.map_some', ne_eq, Option.some_inj]
        exact sanitize_line_ne_nil hws
      rw [(sanitize_out_splitlines raw).2.1 hnl hlast, List.length_map]

/-- Witness for C9 (amended) at `"a\nb"`: two lines in, two lines out. -/
theorem sanitize_preserves_line_count_witness :
    (splitlines (sanitize_git_config ("a\nb".data))).length =
      (splitlines ("a\nb".data)).length :=
  sanitize_preserves_line_count ("a\nb".data)
    (Or.inr (Or.inr ⟨"b".data, by decide, by decide⟩))

theorem credReplacement_ne_nil (l : List Char) : credReplacement l ≠ [] := by
  unfold credReplacement
  split
  · intro hnil
    rw [List.append_eq_nil] at hnil
    cases hnil.2
  · intro hnil
    cases hnil

theorem sanitize_line_cred {l : List Char} (h : credSearch none l = true) :
    sanitize_line l = credReplacement l := by
  unfold sanitize_line credReplacement
  rw [if_pos h]

/-- Counterexample to C4 as stated: the credential line
`http.extraheader = AUTH` is indeed replaced wholesale, but the replacement
`http.extraheader = <redacted>` still matches the credential-header pattern
(the case-insensitive word search for `extraheader`), so the sanitized output
does contain a line matching that pattern. -/
theorem sanitize_redacted_line_still_matches :
    credSearch none ("http.extraheader = AUTH".data) = true ∧
      sanitize_git_config ("http.extraheader = AUTH".data) =
        "http.extraheader = <redacted>".data ∧
      ∃ l ∈ splitlines (sanitize_git_config ("http.extraheader = AUTH".data)),
        credSearch none l = true := by
  decide

/-- C4 (amended): every input line matching the credential-header pattern is
replaced wholesale in the sanitizer's output — the line at the same index of
the output becomes its prefix up to the first `=` followed by `= <redacted>`
(or the bare `<redacted>` when the line has no `=`), so the credential value
after `=` never survives. -/
theorem sanitize_cred_line_replaced :
    ∀ (raw : List Char) (i : Nat) (l : List Char),
      (splitlines raw)[i]? = some l → credSearch none l = true →
      (splitlines (sanitize_git_config raw))[i]? = some (credReplacement l) := by
  intro raw i l hget hcred
  have hmap : ((splitlines raw).map sanitize_line)[i]? = some (credReplacement l) := by
    rw [List.getElem?_map, hget, Option.map_some', sanitize_line_cred hcred]
  by_cases hnl : raw.getLast? = some '\n'
  · rw [(sanitize_out_splitlines raw).1 hnl]
    exact hmap
  · by_cases hlast : ((splitlines raw).map sanitize_line).getLast? = some []
    · rw [(sanitize_out_splitlines raw).2.2 hnl hlast]
      set ls' := (splitlines raw).map sanitize_line with hls
      have hi : i < ls'.length := (List.getElem?_eq_some.mp hmap).1
      have hine : i ≠ ls'.length - 1 := by
        intro heq
        rw [List.getLast?_eq_getElem?] at hlast
        rw [← heq] at hlast
        rw [hmap] at hlast
        exact credReplacement_ne_nil l (Option.some_inj.mp hlast)
      have hlt : i < ls'.length - 1 := by omega
      rw [List.dropLast_eq_take, List.getElem?_take, if_pos hlt]
      exact hmap
    · rw [(sanitize_out_splitlines raw).2.1 hnl hlast]
      exact hmap

/-- Witness for C4 (amended) on the two-line input
`http.extraheader = AUTH\nother = x`: the first output line is the redacted
replacement. -/
theorem sanitize_cred_line_replaced_witness :
    (splitlines (sanitize_git_config ("http.extraheader = AUTH\nother = x".data)))[0]? =
      some (credReplacement ("http.extraheader = AUTH".data)) :=
  sanitize_cred_line_replaced ("http.extraheader = AUTH\nother = x".data) 0
    ("http.extraheader = AUTH".data) (by decide) (by decide)

/-! ## Helper lemmas for the sanitizer idempotence development (claim C3) -/

theorem pySpace_not_word {c : Char} (h : pySpace c = true) : isWordChar c = false := by
  unfold pySpace at h
  unfold isWordChar
  rw [Bool.eq_false_iff]
  intro hw
  simp only [Bool.or_eq_true, Bool.and_eq_true, decide_eq_true_eq] at h hw
  omega

theorem ne_of_pySpace {c d : Char} (h : pySpace c = true) (hd : pySpace d = false) :
    c ≠ d := by
  intro he
  rw [he, hd] at h
  cases h

theorem rstrip_decomp (l : List Char) :
    ∃ w, l = rstripL l ++ w ∧ ∀ c ∈ w, pySpace c = true := by
  refine ⟨(l.reverse.takeWhile pySpace).reverse, ?_, ?_⟩
  · simp only [rstripL]
    rw [← List.reverse_append, List.takeWhile_append_dropWhile, List.reverse_reverse]
  · intro c hc
    rw [List.mem_reverse] at hc
    exact mem_of_takeWhile hc

theorem rstripL_idem (l : List Char) : rstripL (rstripL l) = rstripL l := by
  apply rstripL_eq_self
  intro c hc
  unfold rstripL at hc
  rw [List.getLast?_reverse] at hc
  cases hdl : l.reverse.dropWhile pySpace with
  | nil => rw [hdl] at hc; cases hc
  | cons a t =>
    rw [hdl, List.head?_cons] at hc
    injection hc with h1
    rw [← h1]
    exact dropWhile_head_not hdl

theorem drop_length_takeWhile {α : Type} (p : α → Bool) (l : List α) :
    l.drop (l.takeWhile p).length = l.dropWhile p := by
  have h := List.drop_left (l.takeWhile p) (l.dropWhile p)
  rw [List.takeWhile_append_dropWhile] at h
  exact h

theorem getLast?_cons_or (c : Char) (x : List Char) :
    (c :: x).getLast? = x.getLast?.or (some c) := by
  induction x generalizing c with
  | nil => rfl
  | cons d t ih =>
    rw [List.getLast?_cons_cons, ih d]
    cases ht : t.getLast? with
    | none => rfl
    | some a => rfl

theorem takeWhile_ne_eq_cons (y : List Char) :
    ('=' :: y).takeWhile (fun ch => !(ch == '=')) = [] := by
  simp [List.takeWhile_cons]

theorem first_eq_unique {a b c d : List Char}
    (h : a ++ '=' :: b = c ++ '=' :: d)
    (ha : ∀ ch ∈ a, (ch == '=') = false) (hc : ∀ ch ∈ c, (ch == '=') = false) :
    a = c ∧ b = d := by
  have key : ∀ (x y : List Char), (∀ ch ∈ x, (ch == '=') = false) →
      (x ++ '=' :: y).takeWhile (fun ch => !(ch == '=')) = x := by
    intro x y hx
    have hall : ∀ ch ∈ x, (fun ch => !(ch == '=')) ch = true := by
      intro ch hch
      show (!(ch == '=')) = true
      rw [hx ch hch]
      rfl
    rw [takeWhile_append_all hall, takeWhile_ne_eq_cons, List.append_nil]
  have h1 := key a b ha
  have h2 := key c d hc
  rw [h] at h1
  have hac : a = c := h1.symm.trans h2
  subst hac
  refine ⟨rfl, ?_⟩
  have h3 := List.append_cancel_left h
  injection h3

theorem ehAt_eq (p : Option Char) (x : List Char) :
    ehAt p x = (prevNW p && caselessStartsWith x "extraheader".data &&
      ((x.drop 11).head?.all fun c => !isWordChar c)) := by
  unfold ehAt
  cases (x.drop 11).head? <;> rfl

theorem ehAt_false_of_ne_e {p : Option Char} {c : Char} {rest : List Char}
    (h : lowCh c ≠ 'e') : ehAt p (c :: rest) = false := by
  rw [ehAt_eq]
  have hcsw : caselessStartsWith (c :: rest) "extraheader".data = false := by
    show (lowCh c == lowCh 'e' && caselessStartsWith rest "xtraheader".data) = false
    have hne : lowCh c ≠ lowCh 'e' := by
      have he : lowCh 'e' = 'e' := by decide
      rw [he]
      exact h
    rw [beq_eq_false_iff_ne.mpr hne, Bool.false_and]
  rw [hcsw, Bool.and_false, Bool.false_and]

theorem credSearch_cons (p : Option Char) (c : Char) (rest : List Char) :
    credSearch p (c :: rest) = (ehAt p (c :: rest) || credSearch (some c) rest) := rfl

theorem credSearch_ctx {p q : Option Char} (h : prevNW p = prevNW q) :
    ∀ x, credSearch p x = credSearch q x := by
  intro x
  cases x with
  | nil => rfl
  | cons c rest =>
    rw [credSearch_cons, credSearch_cons, ehAt_eq, ehAt_eq, h]

theorem credSearch_skip : ∀ {x : List Char}, (∀ c ∈ x, lowCh c ≠ 'e') →
    ∀ (p : Option Char) (y : List Char),
      credSearch p (x ++ y) = credSearch (x.getLast?.or p) y := by
  intro x
  induction x with
  | nil => intro _ p y; rfl
  | cons c x' ih =>
    intro hx p y
    rw [show (c :: x') ++ y = c :: (x' ++ y) from rfl]
    rw [credSearch_cons]
    rw [ehAt_false_of_ne_e (hx c (by simp))]
    rw [Bool.false_or]
    rw [ih (fun d hd => hx d (by simp [hd])) (some c) y]
    rw [getLast?_cons_or, Option.or_assoc, Option.or_some]

theorem ehAt_append_nw {w : List Char} (hw : ∀ c ∈ w, isWordChar c = false)
    {p : Option Char} {x : List Char} (h : ehAt p x = true) :
    ehAt p (x ++ w) = true := by
  rw [ehAt_eq] at h ⊢
  rw [Bool.and_eq_true, Bool.and_eq_true] at h
  obtain ⟨⟨hp, hcsw⟩, hm⟩ := h
  obtain ⟨s1, s2, rfl, hce⟩ := (caselessStartsWith_iff _ _).mp hcsw
  rw [Bool.and_eq_true, Bool.and_eq_true]
  have hl1 : s1.length = 11 := by
    have := caselessEqL_length hce
    simpa using this
  refine ⟨⟨hp, ?_⟩, ?_⟩
  · rw [List.append_assoc]
    exact caselessEqL_append_sw _ hce
  · have hd1 : (s1 ++ s2).drop 11 = s2 := by
      rw [← hl1]
      exact List.drop_left s1 s2
    have hd2 : (s1 ++ s2 ++ w).drop 11 = s2 ++ w := by
      rw [List.append_assoc, ← hl1]
      exact List.drop_left s1 (s2 ++ w)
    rw [hd2]
    rw [hd1] at hm
    cases s2 with
    | nil =>
      cases hw2 : w with
      | nil => rfl
      | cons c' w' =>
        show ((c' :: w' : List Char).head?.all fun c => !isWordChar c) = true
        rw [List.head?_cons]
        show (!isWordChar c') = true
        rw [hw c' (by rw [hw2]; simp)]
        rfl
    | cons d t =>
      exact hm

theorem credSearch_append_nw {w : List Char} (hw : ∀ c ∈ w, isWordChar c = false) :
    ∀ (x : List Char) (p : Option Char), credSearch p x = true →
      credSearch p (x ++ w) = true := by
  intro x
  induction x with
  | nil =>
    intro p h
    have h0 : credSearch p [] = false := rfl
    rw [h0] at h
    cases h
  | cons c rest ih =>
    intro p h
    rw [show (c :: rest) ++ w = c :: (rest ++ w) from rfl, credSearch_cons]
    rw [credSearch_cons] at h
    rw [Bool.or_eq_true] at h ⊢
    rcases h with h | h
    · exact Or.inl (ehAt_append_nw hw h)
    · exact Or.inr (ih (some c) h)

theorem credSearch_prepend {z : List Char} {c0 : Char}
    (h : credSearch (some c0) z = true) :
    ∀ (a : List Char) (p : Option Char), a.getLast? = some c0 →
      credSearch p (a ++ z) = true := by
  intro a
  induction a with
  | nil =>
    intro p hl
    simp at hl
  | cons c a' ih =>
    intro p hl
    rw [show (c :: a') ++ z = c :: (a' ++ z) from rfl, credSearch_cons, Bool.or_eq_true]
    right
    cases a' with
    | nil =>
      have hc : c = c0 := by
        have h1 : ([c] : List Char).getLast? = some c := rfl
        rw [h1] at hl
        injection hl
      rw [hc]
      exact h
    | cons d t =>
      exact ih (some c) (by rwa [List.getLast?_cons_cons] at hl)

theorem stripUserinfoAt_cases (url : List Char) (n : Nat) :
    stripUserinfoAt url n = url ∨
    ∃ rn gg,
      url = url.take n ++ (rn ++ '@' :: gg) ∧
      (∀ c ∈ rn, (c == '/' || c == '@' || pySpace c) = false) ∧
      rn ≠ [] ∧
      stripUserinfoAt url n =
        url.take n ++ (if gg.getLast? = some '\n' then gg.dropLast else gg) := by
  simp only [stripUserinfoAt]
  set rest := url.drop n with hrest
  set rn := rest.takeWhile (fun c => !(c == '/' || c == '@' || pySpace c)) with hrn
  set af := rest.drop rn.length with haf
  set gg := af.tail with hgg
  set cre := (if gg.getLast? = some '\n' then gg.dropLast else gg) with hcre
  by_cases hat : af.head? = some '@'
  · rw [if_pos hat]
    by_cases hcond : rn ≠ [] ∧ cre ≠ [] ∧ cre.all (fun c => !(c == '\n')) = true
    · rw [if_pos hcond]
      right
      refine ⟨rn, gg, ?_, ?_, hcond.1, ?_⟩
      · have h1 : af = rest.dropWhile (fun c => !(c == '/' || c == '@' || pySpace c)) := by
          rw [haf, hrn]
          exact drop_length_takeWhile _ rest
        have h2 : rn ++ af = rest := by
          rw [h1, hrn]
          exact List.takeWhile_append_dropWhile _ rest
        have h3 : af = '@' :: gg := by
          rw [hgg]
          cases haf2 : af with
          | nil =>
            rw [haf2] at hat
            simp at hat
          | cons a t =>
            rw [haf2, List.head?_cons] at hat
            injection hat with h4
            rw [h4]
            rfl
        conv_lhs => rw [← List.take_append_drop n url]
        rw [← hrest, ← h2, h3]
      · intro c hc
        rw [hrn] at hc
        have := mem_of_takeWhile hc
        rwa [Bool.not_eq_true'] at this
      · rw [hcre]
    · rw [if_neg hcond]
      left
      rfl
  · rw [if_neg hat]
    left
    rfl

theorem stripUserinfoAt_eq_self_of_no_at {url : List Char} {n : Nat}
    (h : '@' ∉ url.drop n) :
    stripUserinfoAt url n = url := by
  simp only [stripUserinfoAt]
  have hat : ¬(((url.drop n).drop ((url.drop n).takeWhile
      (fun c => !(c == '/' || c == '@' || pySpace c))).length).head? = some '@') := by
    intro hat
    exact h ((List.drop_sublist _ _).subset (List.mem_of_mem_head? (Option.mem_def.mpr hat)))
  rw [if_neg hat]

theorem stripUserinfo_of_decomp {pfx gg : List Char}
    (hpfx : pfx = "https://".data ∨ pfx = "http://".data)
    (hno : '@' ∉ gg) :
    stripUserinfo (pfx ++ gg) = pfx ++ gg := by
  rcases hpfx with rfl | rfl
  · unfold stripUserinfo
    rw [if_pos (startsWithL_append_self _ _)]
    apply stripUserinfoAt_eq_self_of_no_at
    have hdrop : ("https://".data ++ gg : List Char).drop 8 = gg := by
      rw [show (8 : Nat) = ("https://".data : List Char).length from rfl]
      exact List.drop_left _ _
    rw [hdrop]
    exact hno
  · have hs : startsWithL ("http://".data ++ gg) "https://".data = false := rfl
    have hs' : ¬(startsWithL ("http://".data ++ gg) "https://".data = true) := by
      rw [hs]
      exact Bool.false_ne_true
    unfold stripUserinfo
    rw [if_neg hs', if_pos (startsWithL_append_self _ _)]
    apply stripUserinfoAt_eq_self_of_no_at
    have hdrop : ("http://".data ++ gg : List Char).drop 7 = gg := by
      rw [show (7 : Nat) = ("http://".data : List Char).length from rfl]
      exact List.drop_left _ _
    rw [hdrop]
    exact hno

theorem stripUserinfo_idem {url : List Char}
    (hnw : ∀ c ∈ url, pySpace c = false) (hcnt : url.count '@' ≤ 1) :
    stripUserinfo (stripUserinfo url) = stripUserinfo url := by
  by_cases h8 : startsWithL url "https://".data = true
  · have e1 : stripUserinfo url = stripUserinfoAt url 8 := by
      unfold stripUserinfo
      rw [if_pos h8]
    rcases stripUserinfoAt_cases url 8 with heq | ⟨rn, gg, hdec, hrnP, hrnne, hval⟩
    · rw [e1, heq, e1]
      exact heq
    · have htake : url.take 8 = "https://".data := by
        obtain ⟨t, ht⟩ := (startsWithL_iff _ _).mp h8
        rw [← ht, show (8 : Nat) = ("https://".data : List Char).length from rfl,
          List.take_left]
      have hgmem : ∀ c ∈ gg, c ∈ url := by
        intro c hc
        rw [hdec]
        simp [hc]
      have hnln : gg.getLast? ≠ some '\n' := by
        intro hg
        have h1 : '\n' ∈ gg := List.mem_of_mem_getLast? (Option.mem_def.mpr hg)
        have h2 := hnw '\n' (hgmem _ h1)
        rw [show pySpace '\n' = true from by decide] at h2
        cases h2
      rw [if_neg hnln, htake] at hval
      have hcnt2 : '@' ∉ gg := by
        intro hmem
        rw [hdec, htake] at hcnt
        rw [List.count_append, List.count_append, List.count_cons_self] at hcnt
        have hc0 : List.count '@' ("https://".data) = 0 := by decide
        have hc1 : List.count '@' rn = 0 := by
          rw [List.count_eq_zero]
          intro hmm
          have h5 := hrnP '@' hmm
          rw [show ('@' == '/' || '@' == '@' || pySpace '@') = true from by decide] at h5
          cases h5
        have hc2 : List.count '@' gg ≠ 0 := fun h0 => (List.count_eq_zero.mp h0) hmem
        omega
      rw [e1, hval]
      exact stripUserinfo_of_decomp (Or.inl rfl) hcnt2
  · by_cases h7 : startsWithL url "http://".data = true
    · have e1 : stripUserinfo url = stripUserinfoAt url 7 := by
        unfold stripUserinfo
        rw [if_neg h8, if_pos h7]
      rcases stripUserinfoAt_cases url 7 with heq | ⟨rn, gg, hdec, hrnP, hrnne, hval⟩
      · rw [e1, heq, e1]
        exact heq
      · have htake : url.take 7 = "http://".data := by
          obtain ⟨t, ht⟩ := (startsWithL_iff _ _).mp h7
          rw [← ht, show (7 : Nat) = ("http://".data : List Char).length from rfl,
            List.take_left]
        have hgmem : ∀ c ∈ gg, c ∈ url := by
          intro c hc
          rw [hdec]
          simp [hc]
        have hnln : gg.getLast? ≠ some '\n' := by
          intro hg
          have h1 : '\n' ∈ gg := List.mem_of_mem_getLast? (Option.mem_def.mpr hg)
          have h2 := hnw '\n' (hgmem _ h1)
          rw [show pySpace '\n' = true from by decide] at h2
          cases h2
        rw [if_neg hnln, htake] at hval
        have hcnt2 : '@' ∉ gg := by
          intro hmem
          rw [hdec, htake] at hcnt
          rw [List.count_append, List.count_append, List.count_cons_self] at hcnt
          have hc0 : List.count '@' ("http://".data) = 0 := by decide
          have hc1 : List.count '@' rn = 0 := by
            rw [List.count_eq_zero]
            intro hmm
            have h5 := hrnP '@' hmm
            rw [show ('@' == '/' || '@' == '@' || pySpace '@') = true from by decide] at h5
            cases h5
          have hc2 : List.count '@' gg ≠ 0 := fun h0 => (List.count_eq_zero.mp h0) hmem
          omega
        rw [e1, hval]
        exact stripUserinfo_of_decomp (Or.inr rfl) hcnt2
    · have e1 : stripUserinfo url = url := by
        unfold stripUserinfo
        rw [if_neg h8, if_neg h7]
      rw [e1, e1]

theorem parseUrlLine_compute {a1 a2 a3 u s : List Char}
    (h1 : ∀ c ∈ a1, pySpace c = true) (h2 : ∀ c ∈ a2, pySpace c = true)
    (h3 : ∀ c ∈ a3, pySpace c = true) (hu : u ≠ [])
    (hunw : ∀ c ∈ u, pySpace c = false) (hs : ∀ c ∈ s, pySpace c = true) :
    parseUrlLine (a1 ++ "url".data ++ a2 ++ '=' :: a3 ++ u ++ s) =
      some (a1 ++ "url".data ++ a2 ++ '=' :: a3, u, s) := by
  obtain ⟨c0, u', rfl⟩ := List.exists_cons_of_ne_nil hu
  have hhead_u : ∀ {Z : List Char} (c : Char), ((c0 :: u') ++ Z).head? = some c →
      pySpace c = false := by
    intro Z c hc
    rw [show ((c0 :: u') ++ Z).head? = some c0 from rfl] at hc
    injection hc with h
    rw [← h]
    exact hunw c0 (by simp)
  simp only [parseUrlLine]
  have hL : a1 ++ "url".data ++ a2 ++ '=' :: a3 ++ (c0 :: u') ++ s =
      a1 ++ ("url".data ++ (a2 ++ ('=' :: (a3 ++ ((c0 :: u') ++ s))))) := by
    simp
  rw [hL]
  set X := a3 ++ ((c0 :: u') ++ s) with hX
  set R := "url".data ++ (a2 ++ ('=' :: X)) with hR
  have htwR : R.takeWhile pySpace = [] := by
    apply takeWhile_eq_nil_of_head
    intro c hc
    rw [hR, show ("url".data ++ (a2 ++ ('=' :: X)) : List Char).head? = some 'u' from rfl] at hc
    injection hc with h
    rw [← h]
    decide
  have hdwR : R.dropWhile pySpace = R := by
    apply dropWhile_eq_self_of_head
    intro c hc
    rw [hR, show ("url".data ++ (a2 ++ ('=' :: X)) : List Char).head? = some 'u' from rfl] at hc
    injection hc with h
    rw [← h]
    decide
  have e1 : (a1 ++ R).dropWhile pySpace = R := by
    rw [dropWhile_append_all h1, hdwR]
  have e1' : (a1 ++ R).takeWhile pySpace = a1 := by
    rw [takeWhile_append_all h1, htwR, List.append_nil]
  rw [e1, e1']
  have e2 : startsWithL R "url".data = true := by
    rw [hR]
    exact startsWithL_append_self _ _
  rw [if_pos e2]
  have e3 : R.drop 3 = a2 ++ ('=' :: X) := by
    rw [hR]
    rfl
  rw [e3]
  have e4 : (a2 ++ ('=' :: X)).takeWhile pySpace = a2 := by
    rw [takeWhile_append_all h2, takeWhile_eq_nil_of_head, List.append_nil]
    intro c hc
    rw [List.head?_cons] at hc
    injection hc with h
    rw [← h]
    decide
  have e5 : (a2 ++ ('=' :: X)).dropWhile pySpace = '=' :: X := by
    rw [dropWhile_append_all h2]
    apply dropWhile_eq_self_of_head
    intro c hc
    rw [List.head?_cons] at hc
    injection hc with h
    rw [← h]
    decide
  rw [e4, e5]
  rw [if_pos (show ('=' :: X).head? = some '=' from rfl)]
  rw [show ('=' :: X).tail = X from rfl]
  have e8 : X.takeWhile pySpace = a3 := by
    rw [hX, takeWhile_append_all h3, takeWhile_eq_nil_of_head, List.append_nil]
    exact fun c hc => hhead_u c hc
  have e9 : X.dropWhile pySpace = (c0 :: u') ++ s := by
    rw [hX, dropWhile_append_all h3]
    apply dropWhile_eq_self_of_head
    exact fun c hc => hhead_u c hc
  rw [e8, e9]
  have e10 : ((c0 :: u') ++ s).takeWhile (fun c => !pySpace c) = c0 :: u' := by
    rw [takeWhile_append_all (by intro c hc; show (!pySpace c) = true; rw [hunw c hc]; rfl)]
    rw [takeWhile_eq_nil_of_head, List.append_nil]
    intro c hc
    have hcm : c ∈ s := List.mem_of_mem_head? (Option.mem_def.mpr hc)
    show (!pySpace c) = false
    rw [hs c hcm]
    rfl
  have e11 : ((c0 :: u') ++ s).dropWhile (fun c => !pySpace c) = s := by
    rw [dropWhile_append_all (by intro c hc; show (!pySpace c) = true; rw [hunw c hc]; rfl)]
    apply dropWhile_eq_self_of_head
    intro c hc
    have hcm : c ∈ s := List.mem_of_mem_head? (Option.mem_def.mpr hc)
    show (!pySpace c) = false
    rw [hs c hcm]
    rfl
  rw [e10, e11]
  rw [show (c0 :: u').isEmpty = false from rfl]
  rw [if_neg Bool.false_ne_true]
  rw [if_pos (List.all_eq_true.mpr hs)]

theorem parseUrlLine_append_ws {x w : List Char} {p u s : List Char}
    (h : parseUrlLine x = some (p, u, s)) (hw : ∀ c ∈ w, pySpace c = true) :
    parseUrlLine (x ++ w) = some (p, u, s ++ w) := by
  obtain ⟨hdecomp, hune, hunw, hsws, a1, a2, a3, hpdec, ha1, ha2, ha3⟩ := parseUrlLine_shape h
  have hx : x ++ w = a1 ++ "url".data ++ a2 ++ '=' :: a3 ++ u ++ (s ++ w) := by
    rw [hdecomp, hpdec]
    simp
  rw [hx]
  have hcomp := parseUrlLine_compute ha1 ha2 ha3 hune hunw (by
    intro c hc
    rcases List.mem_append.mp hc with hc | hc
    · exact hsws c hc
    · exact hw c hc)
  rw [hcomp, ← hpdec]

theorem sanitize_line_eq_cred {l : List Char} (hcs : credSearch none l = true)
    (hct : l.contains '=' = true) :
    sanitize_line l = l.takeWhile (fun c => !(c == '=')) ++ "= <redacted>".data := by
  unfold sanitize_line
  rw [if_pos hcs, if_pos hct]

theorem sanitize_line_eq_cred_noeq {l : List Char} (hcs : credSearch none l = true)
    (hct : ¬(l.contains '=' = true)) :
    sanitize_line l = "<redacted>".data := by
  unfold sanitize_line
  rw [if_pos hcs, if_neg hct]

theorem sanitize_line_eq_url {l p u s : List Char} (hcs : credSearch none l = false)
    (hp : parseUrlLine l = some (p, u, s)) :
    sanitize_line l = rstripL (p ++ stripUserinfo u ++ s) := by
  unfold sanitize_line
  rw [if_neg (by rw [hcs]; exact Bool.false_ne_true), hp]

theorem sanitize_line_eq_plain {l : List Char} (hcs : credSearch none l = false)
    (hp : parseUrlLine l = none) :
    sanitize_line l = rstripL l := by
  unfold sanitize_line
  rw [if_neg (by rw [hcs]; exact Bool.false_ne_true), hp]

theorem stripUserinfo_changed_form {url : List Char}
    (hnw : ∀ c ∈ url, pySpace c = false) :
    stripUserinfo url = url ∨
    ∃ pfx rn gg, (pfx = "https://".data ∨ pfx = "http://".data) ∧
      url = pfx ++ (rn ++ '@' :: gg) ∧
      (∀ c ∈ rn, (c == '/' || c == '@' || pySpace c) = false) ∧
      stripUserinfo url = pfx ++ gg := by
  by_cases h8 : startsWithL url "https://".data = true
  · have e1 : stripUserinfo url = stripUserinfoAt url 8 := by
      unfold stripUserinfo
      rw [if_pos h8]
    rcases stripUserinfoAt_cases url 8 with heq | ⟨rn, gg, hdec, hrnP, hrnne, hval⟩
    · left
      rw [e1, heq]
    · right
      have htake : url.take 8 = "https://".data := by
        obtain ⟨t, ht⟩ := (startsWithL_iff _ _).mp h8
        rw [← ht, show (8 : Nat) = ("https://".data : List Char).length from rfl,
          List.take_left]
      have hnln : gg.getLast? ≠ some '\n' := by
        intro hg
        have h1 : '\n' ∈ gg := List.mem_of_mem_getLast? (Option.mem_def.mpr hg)
        have h2 := hnw '\n' (by rw [hdec]; simp [h1])
        rw [show pySpace '\n' = true from by decide] at h2
        cases h2
      rw [if_neg hnln, htake] at hval
      rw [htake] at hdec
      exact ⟨"https://".data, rn, gg, Or.inl rfl, hdec, hrnP, by rw [e1, hval]⟩
  · by_cases h7 : startsWithL url "http://".data = true
    · have e1 : stripUserinfo url = stripUserinfoAt url 7 := by
        unfold stripUserinfo
        rw [if_neg h8, if_pos h7]
      rcases stripUserinfoAt_cases url 7 with heq | ⟨rn, gg, hdec, hrnP, hrnne, hval⟩
      · left
        rw [e1, heq]
      · right
        have htake : url.take 7 = "http://".data := by
          obtain ⟨t, ht⟩ := (startsWithL_iff _ _).mp h7
          rw [← ht, show (7 : Nat) = ("http://".data : List Char).length from rfl,
            List.take_left]
        have hnln : gg.getLast? ≠ some '\n' := by
          intro hg
          have h1 : '\n' ∈ gg := List.mem_of_mem_getLast? (Option.mem_def.mpr hg)
          have h2 := hnw '\n' (by rw [hdec]; simp [h1])
          rw [show pySpace '\n' = true from by decide] at h2
          cases h2
        rw [if_neg hnln, htake] at hval
        rw [htake] at hdec
        exact ⟨"http://".data, rn, gg, Or.inr rfl, hdec, hrnP, by rw [e1, hval]⟩
    · left
      unfold stripUserinfo
      rw [if_neg h8, if_neg h7]

theorem credSearch_out_false {pre url suf : List Char}
    (hl : credSearch none (pre ++ url ++ suf) = false)
    (hpre_e : ∀ c ∈ pre, lowCh c ≠ 'e')
    (hsuf : ∀ c ∈ suf, pySpace c = true)
    (hurl_nw : ∀ c ∈ url, pySpace c = false) :
    credSearch none (pre ++ stripUserinfo url) = false := by
  rcases stripUserinfo_changed_form hurl_nw with heq | ⟨pfx, rn, gg, hpfx, hdec, hrnP, hval⟩
  · rw [heq]
    cases hq : credSearch none (pre ++ url) with
    | false => rfl
    | true =>
      exfalso
      have h2 := credSearch_append_nw (fun c hc => pySpace_not_word (hsuf c hc)) _ none hq
      rw [hl] at h2
      cases h2
  · rw [hval]
    cases hq : credSearch none (pre ++ (pfx ++ gg)) with
    | false => rfl
    | true =>
      exfalso
      have hppe : ∀ c ∈ pre ++ pfx, lowCh c ≠ 'e' := by
        intro c hc
        rcases List.mem_append.mp hc with hc | hc
        · exact hpre_e c hc
        · rcases hpfx with rfl | rfl
          · have hd : ∀ c ∈ ("https://".data : List Char), lowCh c ≠ 'e' := by decide
            exact hd c hc
          · have hd : ∀ c ∈ ("http://".data : List Char), lowCh c ≠ 'e' := by decide
            exact hd c hc
      have hassoc : pre ++ (pfx ++ gg) = (pre ++ pfx) ++ gg := (List.append_assoc _ _ _).symm
      rw [hassoc, credSearch_skip hppe none gg] at hq
      have hpfxne : pfx ≠ [] := by
        rcases hpfx with rfl | rfl <;> simp
      have hlastpp : (pre ++ pfx).getLast? = some '/' := by
        rw [List.getLast?_append_of_ne_nil _ hpfxne]
        rcases hpfx with rfl | rfl <;> decide
      rw [hlastpp, Option.or_some] at hq
      have hctx : prevNW (some '@') = prevNW (some '/') := by decide
      have hq2 : credSearch (some '@') gg = true := (credSearch_ctx hctx gg).trans hq
      have hq3 : credSearch (some '@') (gg ++ suf) = true :=
        credSearch_append_nw (fun c hc => pySpace_not_word (hsuf c hc)) gg (some '@') hq2
      have hq4 : credSearch none ((pre ++ pfx ++ rn ++ ['@']) ++ (gg ++ suf)) = true :=
        credSearch_prepend hq3 (pre ++ pfx ++ rn ++ ['@']) none (List.getLast?_concat _)
      have heql : (pre ++ pfx ++ rn ++ ['@']) ++ (gg ++ suf) = pre ++ url ++ suf := by
        rw [hdec]
        simp
      rw [heql, hl] at hq4
      cases hq4

theorem sanitize_line_idem {l : List Char} (hok : urlValueOk l = true) :
    sanitize_line (sanitize_line l) = sanitize_line l := by
  by_cases hcs : credSearch none l = true
  · by_cases hct : l.contains '=' = true
    · rw [sanitize_line_eq_cred hcs hct]
      set pre := l.takeWhile (fun c => !(c == '=')) with hpre
      have hprene : ∀ ch ∈ pre, (ch == '=') = false := by
        intro ch hch
        rw [hpre] at hch
        have h1 := mem_of_takeWhile hch
        rwa [Bool.not_eq_true'] at h1
      have hlastout : (pre ++ "= <redacted>".data).getLast? = some '>' := by
        rw [List.getLast?_append_of_ne_nil _ (by decide)]
        decide
      by_cases hcs2 : credSearch none (pre ++ "= <redacted>".data) = true
      · have hct2 : (pre ++ "= <redacted>".data).contains '=' = true := by
          have hm : '=' ∈ pre ++ "= <redacted>".data := by
            rw [show ("= <redacted>".data : List Char) = '=' :: " <redacted>".data from rfl]
            exact List.mem_append_right _ (List.mem_cons_self _ _)
          exact List.elem_iff.mpr hm
        rw [sanitize_line_eq_cred hcs2 hct2]
        have htw : (pre ++ "= <redacted>".data).takeWhile (fun c => !(c == '=')) = pre := by
          rw [show ("= <redacted>".data : List Char) = '=' :: " <redacted>".data from rfl]
          rw [takeWhile_append_all
            (by intro c hc; show (!(c == '=')) = true; rw [hprene c hc]; rfl)]
          rw [takeWhile_ne_eq_cons, List.append_nil]
        rw [htw]
      · have hcs2' : credSearch none (pre ++ "= <redacted>".data) = false := by
          rw [← Bool.not_eq_true]
          exact hcs2
        cases hp2 : parseUrlLine (pre ++ "= <redacted>".data) with
        | none =>
          rw [sanitize_line_eq_plain hcs2' hp2]
          apply rstripL_eq_self
          intro c hc
          rw [hlastout] at hc
          injection hc with h
          rw [← h]
          decide
        | some trip =>
          obtain ⟨p2, u2, s2⟩ := trip
          obtain ⟨hdec2, hune2, hunw2, hsws2, b1, b2, b3, hpdec2, hb1, hb2, hb3⟩ :=
            parseUrlLine_shape hp2
          have hs2nil : s2 = [] := by
            cases hs0 : s2 with
            | nil => rfl
            | cons c t =>
              exfalso
              have h1 : (pre ++ "= <redacted>".data).getLast? = s2.getLast? := by
                rw [hdec2]
                exact List.getLast?_append_of_ne_nil _ (by rw [hs0]; simp)
              rw [hlastout, hs0] at h1
              have hgm : '>' ∈ c :: t := List.mem_of_mem_getLast? (Option.mem_def.mpr h1.symm)
              have h3 := hsws2 '>' (by rw [hs0]; exact hgm)
              rw [show pySpace '>' = false from by decide] at h3
              cases h3
          subst hs2nil
          rw [List.append_nil] at hdec2
          have hshape : (b1 ++ "url".data ++ b2) ++ '=' :: (b3 ++ u2) =
              pre ++ '=' :: " <redacted>".data := by
            have h5 : p2 ++ u2 = (b1 ++ "url".data ++ b2) ++ '=' :: (b3 ++ u2) := by
              rw [hpdec2]
              simp
            rw [← h5, ← hdec2]
          have hfree1 : ∀ ch ∈ b1 ++ "url".data ++ b2, (ch == '=') = false := by
            intro ch hch
            rcases List.mem_append.mp hch with hc2 | hc2
            · rcases List.mem_append.mp hc2 with hc3 | hc3
              · rw [beq_eq_false_iff_ne]
                exact ne_of_pySpace (hb1 ch hc3) (by decide)
              · have hd : ∀ ch ∈ ("url".data : List Char), (ch == '=') = false := by decide
                exact hd ch hc3
            · rw [beq_eq_false_iff_ne]
              exact ne_of_pySpace (hb2 ch hc2) (by decide)
          obtain ⟨hpre_eq, htail⟩ := first_eq_unique hshape hfree1 hprene
          have hb3' : b3 = (" <redacted>".data : List Char).takeWhile pySpace := by
            rw [← htail, takeWhile_append_all hb3, takeWhile_eq_nil_of_head, List.append_nil]
            intro c hc
            have hcm : c ∈ u2 := List.mem_of_mem_head? (Option.mem_def.mpr hc)
            exact hunw2 c hcm
          rw [show ((" <redacted>".data : List Char)).takeWhile pySpace = [' ']
            from by decide] at hb3'
          have hu2 : u2 = "<redacted>".data := by
            rw [hb3'] at htail
            have h6 : (' ' :: u2 : List Char) = ' ' :: "<redacted>".data := htail
            injection h6
          rw [sanitize_line_eq_url hcs2' hp2]
          rw [hu2]
          rw [show stripUserinfo ("<redacted>".data) = "<redacted>".data from by decide]
          rw [← hu2, List.append_nil, ← hdec2]
          apply rstripL_eq_self
          intro c hc
          rw [hlastout] at hc
          injection hc with h
          rw [← h]
          decide
    · rw [sanitize_line_eq_cred_noeq hcs hct]
      decide
  · have hcs' : credSearch none l = false := by
      rw [← Bool.not_eq_true]
      exact hcs
    cases hp : parseUrlLine l with
    | none =>
      rw [sanitize_line_eq_plain hcs' hp]
      obtain ⟨w, hwdec, hww⟩ := rstrip_decomp l
      have hcs2 : credSearch none (rstripL l) = false := by
        cases hq : credSearch none (rstripL l) with
        | false => rfl
        | true =>
          exfalso
          have h2 := credSearch_append_nw (fun c hc => pySpace_not_word (hww c hc)) _ none hq
          rw [← hwdec, hcs'] at h2
          cases h2
      have hp2 : parseUrlLine (rstripL l) = none := by
        cases hq : parseUrlLine (rstripL l) with
        | none => rfl
        | some trip2 =>
          exfalso
          obtain ⟨p2, u2, s2⟩ := trip2
          have h2 := parseUrlLine_append_ws hq hww
          rw [← hwdec, hp] at h2
          cases h2
      rw [sanitize_line_eq_plain hcs2 hp2, rstripL_idem]
    | some trip =>
      obtain ⟨pre, url, suf⟩ := trip
      obtain ⟨hdecomp, hune, hunw, hsws, a1, a2, a3, hpdec, ha1, ha2, ha3⟩ :=
        parseUrlLine_shape hp
      have hcnt : url.count '@' ≤ 1 := by
        unfold urlValueOk at hok
        rw [hp] at hok
        exact of_decide_eq_true hok
      have hsune : stripUserinfo url ≠ [] := stripUserinfo_ne_nil hune
      have hsunw : ∀ c ∈ stripUserinfo url, pySpace c = false :=
        fun c hc => hunw c (mem_stripUserinfo hc)
      have hr1 : rstripL (pre ++ stripUserinfo url ++ suf) =
          rstripL (pre ++ stripUserinfo url) :=
        rstripL_append_ws hsws
      have hr2 : rstripL (pre ++ stripUserinfo url) = pre ++ stripUserinfo url := by
        apply rstripL_eq_self
        intro c hc
        rw [List.getLast?_append_of_ne_nil _ hsune] at hc
        exact hsunw c (List.mem_of_mem_getLast? (Option.mem_def.mpr hc))
      rw [sanitize_line_eq_url hcs' hp, hr1, hr2]
      have hpre_e : ∀ c ∈ pre, lowCh c ≠ 'e' := by
        intro c hc
        rw [hpdec] at hc
        rcases List.mem_append.mp hc with hc2 | hc2
        · rcases List.mem_append.mp hc2 with hc3 | hc3
          · rcases List.mem_append.mp hc3 with hc4 | hc4
            · rw [lowCh_eq_self_of_pySpace (ha1 c hc4)]
              exact ne_of_pySpace (ha1 c hc4) (by decide)
            · have hd : ∀ c ∈ ("url".data : List Char), lowCh c ≠ 'e' := by decide
              exact hd c hc4
          · rw [lowCh_eq_self_of_pySpace (ha2 c hc3)]
            exact ne_of_pySpace (ha2 c hc3) (by decide)
        · rcases List.mem_cons.mp hc2 with rfl | hc3
          · decide
          · rw [lowCh_eq_self_of_pySpace (ha3 c hc3)]
            exact ne_of_pySpace (ha3 c hc3) (by decide)
      have hcso : credSearch none (pre ++ stripUserinfo url) = false := by
        apply credSearch_out_false _ hpre_e hsws hunw
        rw [← hdecomp]
        exact hcs'
      have hpo : parseUrlLine (pre ++ stripUserinfo url) =
          some (pre, stripUserinfo url, []) := by
        have hco := parseUrlLine_compute ha1 ha2 ha3 hsune hsunw
          (show ∀ c ∈ ([] : List Char), pySpace c = true by intro c hc; cases hc)
        have hsh : pre ++ stripUserinfo url =
            a1 ++ "url".data ++ a2 ++ '=' :: a3 ++ stripUserinfo url ++ [] := by
          rw [hpdec, List.append_nil]
        rw [hsh, hco, ← hpdec]
      rw [sanitize_line_eq_url hcso hpo]
      rw [stripUserinfo_idem hunw hcnt]
      rw [List.append_nil]
      exact hr2

theorem getLast?_cons_of_ne_nil {c : Char} {x : List Char} (h : x ≠ []) :
    (c :: x).getLast? = x.getLast? := by
  cases x with
  | nil => exact absurd rfl h
  | cons d t => exact List.getLast?_cons_cons

theorem joinNL_ne_nil_of_last {ls : List (List Char)} {ll : List Char}
    (h : ls.getLast? = some ll) (hne : ll ≠ []) : joinNL ls ≠ [] := by
  induction ls with
  | nil => simp at h
  | cons a t ih =>
    cases t with
    | nil =>
      have ha : a = ll := by simpa using h
      rw [show joinNL [a] = a from rfl, ha]
      exact hne
    | cons b t' =>
      show a ++ '\n' :: joinNL (b :: t') ≠ []
      simp

theorem joinNL_getLast {ls : List (List Char)} {ll : List Char}
    (h : ls.getLast? = some ll) (hne : ll ≠ []) :
    (joinNL ls).getLast? = ll.getLast? := by
  induction ls with
  | nil => simp at h
  | cons a t ih =>
    cases t with
    | nil =>
      have ha : a = ll := by simpa using h
      rw [show joinNL [a] = a from rfl, ha]
    | cons b t' =>
      rw [List.getLast?_cons_cons] at h
      have h2 := ih h
      show (a ++ '\n' :: joinNL (b :: t')).getLast? = ll.getLast?
      rw [List.getLast?_append_of_ne_nil _ (by simp)]
      rw [getLast?_cons_of_ne_nil (joinNL_ne_nil_of_last h hne)]
      exact h2

/-- Counterexample to C3 as stated: on `url = http://a@b@c` the sanitizer
strips one userinfo-looking segment per pass (`http://b@c`, then `http://c`),
so sanitizing twice differs from sanitizing once. -/
theorem sanitize_not_idempotent :
    sanitize_git_config (sanitize_git_config ("url = http://a@b@c".data)) ≠
      sanitize_git_config ("url = http://a@b@c".data) := by
  decide

/-- C3 (amended): the Secret Sanitizer is idempotent on every configuration
text whose url-lines carry at most one `@` in their value (the userinfo
rewrite then reaches a fixed point after one pass; credential redaction and
whitespace stripping are always fixed points). -/
theorem sanitize_idempotent_of_single_at :
    ∀ raw : List Char, (∀ l ∈ splitlines raw, urlValueOk l = true) →
      sanitize_git_config (sanitize_git_config raw) = sanitize_git_config raw := by
  intro raw hok
  have e2 : ∀ x : List Char, sanitize_git_config x =
      joinNL ((splitlines x).map sanitize_line) ++
        (if x.getLast? = some '\n' then ['\n'] else []) := fun x => rfl
  have hmapidem : ((splitlines raw).map sanitize_line).map sanitize_line =
      (splitlines raw).map sanitize_line := by
    rw [List.map_map]
    exact List.map_congr_left (fun a ha => sanitize_line_idem (hok a ha))
  have hbf : ∀ l ∈ (splitlines raw).map sanitize_line, ∀ c ∈ l,
      isLineBoundary c = false := by
    intro l hl
    rw [List.mem_map] at hl
    obtain ⟨a, ha, rfl⟩ := hl
    exact sanitize_line_nb (splitlines_nb raw a ha)
  by_cases hnl : raw.getLast? = some '\n'
  · have hsp := (sanitize_out_splitlines raw).1 hnl
    have hlastout : (sanitize_git_config raw).getLast? = some '\n' := by
      rw [e2 raw, if_pos hnl]
      exact List.getLast?_concat _
    rw [e2 (sanitize_git_config raw), hsp, hmapidem, if_pos hlastout]
    rw [e2 raw, if_pos hnl]
  · by_cases hlast : ((splitlines raw).map sanitize_line).getLast? = some []
    · have hout : sanitize_git_config raw =
          joinNL ((splitlines raw).map sanitize_line) := by
        rw [e2 raw, if_neg hnl, List.append_nil]
      have hsp := (sanitize_out_splitlines raw).2.2 hnl hlast
      set ls' := (splitlines raw).map sanitize_line with hls'
      have hlsne : ls' ≠ [] := by
        intro h0
        rw [h0] at hlast
        simp at hlast
      have hsplit : ls' = ls'.dropLast ++ [[]] := by
        conv_lhs => rw [← List.dropLast_append_getLast hlsne]
        congr 1
        have h1 := List.getLast?_eq_getLast ls' hlsne
        rw [hlast] at h1
        injection h1 with h2
        rw [← h2]
      by_cases hinit : ls'.dropLast = []
      · have hout2 : sanitize_git_config raw = [] := by
          rw [hout, hsplit, hinit]
          rfl
        rw [hout2]
        decide
      · have houtB : sanitize_git_config raw = joinNL ls'.dropLast ++ ['\n'] := by
          rw [hout]
          conv_lhs => rw [hsplit]
          rw [joinNL_append_nil_last hinit]
        have hlastout2 : (sanitize_git_config raw).getLast? = some '\n' := by
          rw [houtB]
          exact List.getLast?_concat _
        rw [e2 (sanitize_git_config raw), hsp, if_pos hlastout2]
        have hdl : ls'.dropLast.map sanitize_line = ls'.dropLast := by
          rw [hls', List.dropLast_eq_take, List.length_map, ← List.map_take]
          rw [List.map_map]
          apply List.map_congr_left
          intro a ha
          exact sanitize_line_idem (hok a (List.take_subset _ _ ha))
        rw [hdl, ← houtB]
    · have hsp := (sanitize_out_splitlines raw).2.1 hnl hlast
      have hout : sanitize_git_config raw =
          joinNL ((splitlines raw).map sanitize_line) := by
        rw [e2 raw, if_neg hnl, List.append_nil]
      set ls' := (splitlines raw).map sanitize_line with hls'
      have hlastout : (sanitize_git_config raw).getLast? ≠ some '\n' := by
        rw [hout]
        cases hll : ls'.getLast? with
        | none =>
          have h0 : ls' = [] := List.getLast?_eq_none_iff.mp hll
          rw [h0]
          decide
        | some ll =>
          have hllne : ll ≠ [] := by
            intro h0
            rw [h0] at hll
            exact hlast hll
          rw [joinNL_getLast hll hllne]
          intro hx
          have hc : '\n' ∈ ll := List.mem_of_mem_getLast? (Option.mem_def.mpr hx)
          have hb := hbf ll (List.mem_of_mem_getLast? (Option.mem_def.mpr hll)) '\n' hc
          rw [show isLineBoundary '\n' = true from by decide] at hb
          cases hb
      rw [e2 (sanitize_git_config raw), hsp, hmapidem, if_neg hlastout,
        List.append_nil, ← hout]

/-- Witness for C3 (amended) on a three-line config with a single-`@` url
line, a credential line and a plain line. -/
theorem sanitize_idempotent_of_single_at_witness :
    sanitize_git_config (sanitize_git_config
      ("url = http://user@host/repo\nhttp.extraheader = AUTH\nother = x \n".data)) =
      sanitize_git_config
        ("url = http://user@host/repo\nhttp.extraheader = AUTH\nother = x \n".data) :=
  sanitize_idempotent_of_single_at _ (by decide)
